import Mathlib

/-!
# SHA-256 (`sha256.c`): a shallow embedding and its verification

The C program is embedded as pure functions over `Nat`:

* a `uint32_t` is a natural number below `2^32`; every operation that can
  leave that range in C (`+`, `<<`, `~`) is followed by an explicit
  reduction modulo `2^32`;
* a `uint8_t` is a natural number below `2^8`, a `uint64_t` one below
  `2^64`; `size_t` is taken to be 64 bits wide, so `len * 8` wraps modulo
  `2^64`;
* a C array is a `List Nat`; `a[i] = v` is `List.set`, a read is
  `List.getD`;
* a `for`/`while` loop is a recursive function on a fuel argument.

`sha256` additionally records, in order, every block that it hands to
`sha256_transform`, so that statements about *which* blocks are compressed
can be made.
-/

namespace SHA256

/-! ## Constants -/

/-- The round constants `k[64]` (`sha256.c`, lines 7-16), one list for each
line of the initialiser. -/
def k : List Nat :=
  [0x428a2f98, 0x71374491, 0xb5c0fbcf, 0xe9b5dba5, 0x3956c25b, 0x59f111f1, 0x923f82a4, 0xab1c5ed5] ++
  [0xd807aa98, 0x12835b01, 0x243185be, 0x550c7dc3, 0x72be5d74, 0x80deb1fe, 0x9bdc06a7, 0xc19bf174] ++
  [0xe49b69c1, 0xefbe4786, 0x0fc19dc6, 0x240ca1cc, 0x2de92c6f, 0x4a7484aa, 0x5cb0a9dc, 0x76f988da] ++
  [0x983e5152, 0xa831c66d, 0xb00327c8, 0xbf597fc7, 0xc6e00bf3, 0xd5a79147, 0x06ca6351, 0x14292967] ++
  [0x27b70a85, 0x2e1b2138, 0x4d2c6dfc, 0x53380d13, 0x650a7354, 0x766a0abb, 0x81c2c92e, 0x92722c85] ++
  [0xa2bfe8a1, 0xa81a664b, 0xc24b8b70, 0xc76c51a3, 0xd192e819, 0xd6990624, 0xf40e3585, 0x106aa070] ++
  [0x19a4c116, 0x1e376c08, 0x2748774c, 0x34b0bcb5, 0x391c0cb3, 0x4ed8aa4a, 0x5b9cca4f, 0x682e6ff3] ++
  [0x748f82ee, 0x78a5636f, 0x84c87814, 0x8cc70208, 0x90befffa, 0xa4506ceb, 0xbef9a3f7, 0xc67178f2]

/-- The initial hash state, the initialiser of `state[8]` in `sha256`
(lines 79-82). -/
def init_state : List Nat := [
  0x6a09e667, 0xbb67ae85, 0x3c6ef372, 0xa54ff53a,
  0x510e527f, 0x9b05688c, 0x1f83d9ab, 0x5be0cd19]

/-! ## 32-bit word operations (the macros of lines 19-27) -/

/-- Addition of two `uint32_t`: the sum wraps modulo `2^32`. -/
def add32 (x y : Nat) : Nat := (x + y) % 2 ^ 32

/-- The macro `ROTR(x, n)`, `((x) >> (n)) | ((x) << (32 - (n)))`, on a
`uint32_t`: the left shift is truncated to 32 bits. -/
def ROTR (x n : Nat) : Nat := (x >>> n) ||| ((x <<< (32 - n)) % 2 ^ 32)

/-- The operator `~` on a `uint32_t`: all 32 bits flipped. -/
def not32 (x : Nat) : Nat := (2 ^ 32 - 1) ^^^ x

/-- The macro `Ch(x, y, z)`, `((x) & (y)) ^ (~(x) & (z))`. -/
def Ch (x y z : Nat) : Nat := (x &&& y) ^^^ (not32 x &&& z)

/-- The macro `Maj(x, y, z)`, `((x) & (y)) ^ ((x) & (z)) ^ ((y) & (z))`. -/
def Maj (x y z : Nat) : Nat := (x &&& y) ^^^ (x &&& z) ^^^ (y &&& z)

/-- The macro `Sigma0(x)`. -/
def Sigma0 (x : Nat) : Nat := ROTR x 2 ^^^ ROTR x 13 ^^^ ROTR x 22

/-- The macro `Sigma1(x)`. -/
def Sigma1 (x : Nat) : Nat := ROTR x 6 ^^^ ROTR x 11 ^^^ ROTR x 25

/-- The macro `sigma0(x)`. -/
def sigma0 (x : Nat) : Nat := ROTR x 7 ^^^ ROTR x 18 ^^^ (x >>> 3)

/-- The macro `sigma1(x)`. -/
def sigma1 (x : Nat) : Nat := ROTR x 17 ^^^ ROTR x 19 ^^^ (x >>> 10)

/-! ## `sha256_transform` (lines 30-75) -/

/-- The right-hand side of line 46: four bytes of the block packed into a
`uint32_t`. The bytes are promoted to `int` before they are shifted; the
value stored in `w[i]` is the result reduced modulo `2^32`. -/
def pack_word (block : List Nat) (i : Nat) : Nat :=
  ((block.getD (i * 4) 0 <<< 24) ||| (block.getD (i * 4 + 1) 0 <<< 16) |||
    (block.getD (i * 4 + 2) 0 <<< 8) ||| block.getD (i * 4 + 3) 0) % 2 ^ 32

/-- The loop of lines 45-47, `n` iterations starting at index `i`. -/
def schedule_pack (block : List Nat) : Nat → Nat → List Nat → List Nat
  | 0, _, w => w
  | n + 1, i, w => schedule_pack block n (i + 1) (w.set i (pack_word block i))

/-- The right-hand side of line 49. -/
def expand_word (w : List Nat) (i : Nat) : Nat :=
  add32 (add32 (add32 (sigma1 (w.getD (i - 2) 0)) (w.getD (i - 7) 0))
    (sigma0 (w.getD (i - 15) 0))) (w.getD (i - 16) 0)

/-- The loop of lines 48-50, `n` iterations starting at index `i`. -/
def schedule_expand : Nat → Nat → List Nat → List Nat
  | 0, _, w => w
  | n + 1, i, w => schedule_expand n (i + 1) (w.set i (expand_word w i))

/-- The message schedule `w[64]` as lines 45-50 leave it, from the block and
the initial contents `w0` of the (uninitialised) array. -/
def message_schedule (w0 block : List Nat) : List Nat :=
  schedule_expand 48 16 (schedule_pack block 16 0 w0)

/-- The working registers `a .. h`. -/
structure Regs where
  a : Nat
  b : Nat
  c : Nat
  d : Nat
  e : Nat
  f : Nat
  g : Nat
  h : Nat
deriving DecidableEq

/-- The body of the main loop (lines 54-63) at index `i`. -/
def round (w : List Nat) (i : Nat) (r : Regs) : Regs :=
  let t1 := add32 (add32 (add32 (add32 r.h (Sigma1 r.e)) (Ch r.e r.f r.g)) (k.getD i 0))
    (w.getD i 0)
  let t2 := add32 (Sigma0 r.a) (Maj r.a r.b r.c)
  { h := r.g, g := r.f, f := r.e, e := add32 r.d t1, d := r.c, c := r.b, b := r.a,
    a := add32 t1 t2 }

/-- The main loop (lines 53-64), `n` iterations starting at index `i`. -/
def rounds (w : List Nat) : Nat → Nat → Regs → Regs
  | 0, _, r => r
  | n + 1, i, r => rounds w n (i + 1) (round w i r)

/-- The registers as lines 35-42 load them from the state. -/
def load_regs (state : List Nat) : Regs :=
  { a := state.getD 0 0, b := state.getD 1 0, c := state.getD 2 0, d := state.getD 3 0,
    e := state.getD 4 0, f := state.getD 5 0, g := state.getD 6 0, h := state.getD 7 0 }

/-- The state update of lines 67-74. -/
def add_regs (state : List Nat) (r : Regs) : List Nat :=
  [add32 (state.getD 0 0) r.a, add32 (state.getD 1 0) r.b, add32 (state.getD 2 0) r.c,
   add32 (state.getD 3 0) r.d, add32 (state.getD 4 0) r.e, add32 (state.getD 5 0) r.f,
   add32 (state.getD 6 0) r.g, add32 (state.getD 7 0) r.h]

/-- The function `sha256_transform(state, block)`: the new contents of
`state[0..7]`. The local array `w` starts out as 64 zero words; every entry
is written before it is read. -/
def sha256_transform (state block : List Nat) : List Nat :=
  add_regs state (rounds (message_schedule (List.replicate 64 0) block) 64 0 (load_regs state))

/-! ## `sha256` (lines 78-124) -/

/-- The variables of `sha256` while its block loop runs, together with the
record `calls` of the blocks handed to `sha256_transform` so far (oldest
first). `message` is the memory from the current value of the pointer
`message` on. -/
structure Ctx where
  state : List Nat
  block : List Nat
  block_len : Nat
  remaining : Nat
  message : List Nat
  calls : List (List Nat)
deriving DecidableEq

/-- The call `sha256_transform(state, block)`; the block is recorded. -/
def call_transform (c : Ctx) : Ctx :=
  { c with state := sha256_transform c.state c.block, calls := c.calls ++ [c.block] }

/-- The call `memcpy(block, message, n)`: the first `n` bytes of `block` are
replaced by the first `n` bytes of `message`. -/
def memcpy (block message : List Nat) (n : Nat) : List Nat :=
  message.take n ++ block.drop n

/-- The statement `block[block_len++] = v`. -/
def put_byte (v : Nat) (c : Ctx) : Ctx :=
  { c with block := c.block.set c.block_len v, block_len := c.block_len + 1 }

/-- The loop `while (block_len < bound) block[block_len++] = 0;`
(lines 101 and 105), at most `fuel` iterations. -/
def zero_fill (bound : Nat) : Nat → Ctx → Ctx
  | 0, c => c
  | fuel + 1, c => if c.block_len < bound then zero_fill bound fuel (put_byte 0 c) else c

/-- The loop of lines 108-110, `n` iterations starting at index `i`. -/
def store_length (bit_len : Nat) : Nat → Nat → List Nat → List Nat
  | 0, _, block => block
  | n + 1, i, block =>
    store_length bit_len (n) (i + 1) (block.set (56 + i) ((bit_len >>> (56 - 8 * i)) &&& 0xff))

/-- The padding branch, lines 97-111. -/
def pad_block (bit_len : Nat) (c : Ctx) : Ctx :=
  let c := put_byte 0x80 c
  let c := if c.block_len > 56 then
      let c := zero_fill 64 64 c
      let c := call_transform c
      { c with block_len := 0 }
    else c
  let c := zero_fill 56 56 c
  let c := { c with block := store_length bit_len 8 0 c.block }
  { c with block_len := 64 }

/-- The body of the block loop, lines 91-114. -/
def loop_body (bit_len : Nat) (c : Ctx) : Ctx :=
  let c := { c with block_len := if c.remaining < 64 then c.remaining else 64 }
  let c := { c with block := memcpy c.block c.message c.block_len }
  let c := { c with message := c.message.drop c.block_len }
  let c := { c with remaining := c.remaining - c.block_len }
  let c := if c.block_len < 64 then pad_block bit_len c else c
  call_transform c

/-- The block loop `while (remaining > 0) { ... }` (lines 90-115), at most
`fuel` iterations; `none` when the fuel does not suffice. -/
def sha256_loop (bit_len : Nat) : Nat → Ctx → Option Ctx
  | 0, c => if c.remaining > 0 then none else some c
  | fuel + 1, c =>
    if c.remaining > 0 then sha256_loop bit_len fuel (loop_body bit_len c) else some c

/-- The four writes of one iteration of the output loop (lines 119-122), as
(index, value) pairs in program order. -/
def hash_writes_at (state : List Nat) (i : Nat) : List (Nat × Nat) :=
  [(i * 4, (state.getD i 0 >>> 24) &&& 0xff),
   (i * 4 + 1, (state.getD i 0 >>> 16) &&& 0xff),
   (i * 4 + 2, (state.getD i 0 >>> 8) &&& 0xff),
   (i * 4 + 3, state.getD i 0 &&& 0xff)]

/-- The writes of the output loop (lines 118-123), `n` iterations starting
at index `i`, in program order. -/
def hash_writes (state : List Nat) : Nat → Nat → List (Nat × Nat)
  | 0, _ => []
  | n + 1, i => hash_writes_at state i ++ hash_writes state n (i + 1)

/-- A sequence of writes `hash[index] = value` carried out on a buffer. -/
def apply_writes (hash : List Nat) (ws : List (Nat × Nat)) : List Nat :=
  ws.foldl (fun buf p => buf.set p.1 p.2) hash

/-- The function `sha256` up to the end of the block loop: `message` is the
memory at the pointer `message`, `len` the length argument, `block0` the
initial contents of the uninitialised array `block`. `bit_len` is
`len * 8` in 64-bit arithmetic; the loop gets `len` iterations of fuel. -/
def sha256_run (message : List Nat) (len : Nat) (block0 : List Nat) : Option Ctx :=
  sha256_loop ((len * 8) % 2 ^ 64) len
    { state := init_state, block := block0, block_len := 0, remaining := len,
      message := message, calls := [] }

/-- The function `sha256(message, len, hash)`: the contents of the buffer
`hash` on return, `hash0` being its contents on entry. -/
def sha256 (message : List Nat) (len : Nat) (block0 hash0 : List Nat) : Option (List Nat) :=
  (sha256_run message len block0).map fun c => apply_writes hash0 (hash_writes c.state 8 0)

/-! ## FIPS 180-4, as the specification words it -/

/-- The 8-byte big-endian encoding of `v`. -/
def be64 (v : Nat) : List Nat :=
  (List.range 8).map fun i => v / 256 ^ (7 - i) % 256

/-- The number of zero bytes of the padding of an `n`-byte message: the
least `z` with `n + 1 + z + 8` a multiple of 64. -/
def pad_zeros (n : Nat) : Nat := (64 - (n + 9) % 64) % 64

/-- The padded message: `M`, the byte `0x80`, the zero bytes, and the bit
length `8 * |M|` as 8 bytes big-endian. -/
def fips_pad (M : List Nat) : List Nat :=
  M ++ [0x80] ++ List.replicate (pad_zeros M.length) 0 ++ be64 (8 * M.length)

/-- The first `n` consecutive 64-byte blocks of `P`. -/
def blocks_of : Nat → List Nat → List (List Nat)
  | 0, _ => []
  | n + 1, P => P.take 64 :: blocks_of n (P.drop 64)

/-- One state word as 4 bytes, most significant first. -/
def be32 (x : Nat) : List Nat := [x / 2 ^ 24 % 256, x / 2 ^ 16 % 256, x / 2 ^ 8 % 256, x % 256]

/-- The state words, each as 4 bytes big-endian, in state order. -/
def digest_bytes : List Nat → List Nat
  | [] => []
  | x :: state => be32 x ++ digest_bytes state

/-- The FIPS 180-4 SHA-256 digest of `M`: the compression function folded
over the blocks of the padded message from the initial state, serialised. -/
def fips_sha256 (M : List Nat) : List Nat :=
  digest_bytes
    ((blocks_of ((fips_pad M).length / 64) (fips_pad M)).foldl sha256_transform init_state)

/-! ## The compression function, as the specification words it -/

/-- One round: `T1 = h + Sigma1(e) + Ch(e,f,g) + k[i] + w[i]`,
`T2 = Sigma0(a) + Maj(a,b,c)`, then
`(a,b,c,d,e,f,g,h) := (T1+T2, a, b, c, d+T1, e, f, g)`, every sum
modulo `2^32`. -/
def round_step (w : List Nat) (r : Regs) (i : Nat) : Regs :=
  let T1 := (r.h + Sigma1 r.e + Ch r.e r.f r.g + k.getD i 0 + w.getD i 0) % 2 ^ 32
  let T2 := (Sigma0 r.a + Maj r.a r.b r.c) % 2 ^ 32
  { a := (T1 + T2) % 2 ^ 32, b := r.a, c := r.b, d := r.c,
    e := (r.d + T1) % 2 ^ 32, f := r.e, g := r.f, h := r.g }

/-- The registers after the round step has been applied for `i = 0..63` in
order, starting from `r`. -/
def rounds_spec (w : List Nat) (r : Regs) : Regs :=
  (List.range 64).foldl (round_step w) r

/-! ## The loops of `sha256` in closed form -/

/-- The byte that the output loop stores at `hash[j]`, for `j < 32`. -/
def state_byte (state : List Nat) (j : Nat) : Nat :=
  (state.getD (j / 4) 0 >>> (24 - 8 * (j % 4))) &&& 0xff

/-- The eight bytes that the loop of lines 108-110 stores at
`block[56..63]`. -/
def len_bytes (bit_len : Nat) : List Nat :=
  (List.range' 0 8).map fun i => (bit_len >>> (56 - 8 * i)) &&& 0xff

/-- The blocks that one iteration of the block loop compresses, `M` being
the message bytes not yet consumed (`remaining` of them): a full block of
message bytes, or the one or two blocks of the padding branch. -/
def iteration_blocks (bit_len : Nat) (M : List Nat) : List (List Nat) :=
  if 64 ≤ M.length then [M.take 64]
  else if M.length < 56 then
    [M ++ [0x80] ++ List.replicate (55 - M.length) 0 ++ len_bytes bit_len]
  else
    [M ++ [0x80] ++ List.replicate (63 - M.length) 0, List.replicate 56 0 ++ len_bytes bit_len]

/-- The blocks that the block loop compresses in `n` iterations or fewer,
`M` being the message bytes not yet consumed. -/
def compressed_blocks (bit_len : Nat) : Nat → List Nat → List (List Nat)
  | 0, _ => []
  | n + 1, M =>
    if 0 < M.length then iteration_blocks bit_len M ++ compressed_blocks bit_len n (M.drop 64)
    else []

/-- The blocks that `sha256` compresses, in order, when called on the
message `M` with `len = |M|`. -/
def sha256_blocks (M : List Nat) : List (List Nat) :=
  compressed_blocks ((M.length * 8) % 2 ^ 64) M.length M

/-- The hash state at the end of the block loop of `sha256` on `M`. -/
def sha256_state (M : List Nat) : List Nat :=
  (sha256_blocks M).foldl sha256_transform init_state

/-- A hash state as the C type has it: 8 words, each below `2^32`. -/
def WordState (state : List Nat) : Prop :=
  state.length = 8 ∧ ∀ x ∈ state, x < 2 ^ 32

/-! ## Test messages and published digests -/

/-- The message "abc". -/
def msg_abc : List Nat := [0x61, 0x62, 0x63]

/-- The published digest of "abc",
ba7816bf8f01cfea414140de5dae2223b00361a396177a9cb410ff61f20015ad. -/
def digest_abc : List Nat := [
  0xba, 0x78, 0x16, 0xbf, 0x8f, 0x01, 0xcf, 0xea, 0x41, 0x41, 0x40, 0xde, 0x5d, 0xae, 0x22, 0x23,
  0xb0, 0x03, 0x61, 0xa3, 0x96, 0x17, 0x7a, 0x9c, 0xb4, 0x10, 0xff, 0x61, 0xf2, 0x00, 0x15, 0xad]

/-- The 56-byte FIPS 180-4 test message
"abcdbcdecdefdefgefghfghighijhijkijkljklmklmnlmnomnopnopq". -/
def msg_56 : List Nat := [
  0x61, 0x62, 0x63, 0x64, 0x62, 0x63, 0x64, 0x65, 0x63, 0x64, 0x65, 0x66, 0x64, 0x65,
  0x66, 0x67, 0x65, 0x66, 0x67, 0x68, 0x66, 0x67, 0x68, 0x69, 0x67, 0x68, 0x69, 0x6a,
  0x68, 0x69, 0x6a, 0x6b, 0x69, 0x6a, 0x6b, 0x6c, 0x6a, 0x6b, 0x6c, 0x6d, 0x6b, 0x6c,
  0x6d, 0x6e, 0x6c, 0x6d, 0x6e, 0x6f, 0x6d, 0x6e, 0x6f, 0x70, 0x6e, 0x6f, 0x70, 0x71]

/-- The published digest of the 56-byte test message,
248d6a61d20638b8e5c026930c3e6039a33ce45964ff2167f6ecedd419db06c1. -/
def digest_56 : List Nat := [
  0x24, 0x8d, 0x6a, 0x61, 0xd2, 0x06, 0x38, 0xb8, 0xe5, 0xc0, 0x26, 0x93, 0x0c, 0x3e, 0x60, 0x39,
  0xa3, 0x3c, 0xe4, 0x59, 0x64, 0xff, 0x21, 0x67, 0xf6, 0xec, 0xed, 0xd4, 0x19, 0xdb, 0x06, 0xc1]

/-- The published digest of the empty message,
e3b0c44298fc1c149afbf4c8996fb92427ae41e4649b934ca495991b7852b855. -/
def digest_empty : List Nat := [
  0xe3, 0xb0, 0xc4, 0x42, 0x98, 0xfc, 0x1c, 0x14, 0x9a, 0xfb, 0xf4, 0xc8, 0x99, 0x6f, 0xb9, 0x24,
  0x27, 0xae, 0x41, 0xe4, 0x64, 0x9b, 0x93, 0x4c, 0xa4, 0x95, 0x99, 0x1b, 0x78, 0x52, 0xb8, 0x55]

/-- The eight initial constants, serialised:
6a09e667bb67ae853c6ef372a54ff53a510e527f9b05688c1f83d9ab5be0cd19. -/
def init_bytes : List Nat := [
  0x6a, 0x09, 0xe6, 0x67, 0xbb, 0x67, 0xae, 0x85, 0x3c, 0x6e, 0xf3, 0x72, 0xa5, 0x4f, 0xf5, 0x3a,
  0x51, 0x0e, 0x52, 0x7f, 0x9b, 0x05, 0x68, 0x8c, 0x1f, 0x83, 0xd9, 0xab, 0x5b, 0xe0, 0xcd, 0x19]

/-- The 64-byte message made of 64 letters "a". -/
def msg_a64 : List Nat := List.replicate 64 0x61

/-- The SHA-256 digest of 64 letters "a",
ffe054fe7ae0cb6dc65c3af9b61d5209f439851db43d0ba5997337df154668eb. -/
def digest_a64 : List Nat := [
  0xff, 0xe0, 0x54, 0xfe, 0x7a, 0xe0, 0xcb, 0x6d, 0xc6, 0x5c, 0x3a, 0xf9, 0xb6, 0x1d, 0x52, 0x09,
  0xf4, 0x39, 0x85, 0x1d, 0xb4, 0x3d, 0x0b, 0xa5, 0x99, 0x73, 0x37, 0xdf, 0x15, 0x46, 0x68, 0xeb]

/-- The bytes
df5bb81ce81e0626fb45a8944fd40f31b25e6816d6d499c1ab90492900635e66: the
initial state after one compression of 64 letters "a", serialised. -/
def one_block_a64 : List Nat := [
  0xdf, 0x5b, 0xb8, 0x1c, 0xe8, 0x1e, 0x06, 0x26, 0xfb, 0x45, 0xa8, 0x94, 0x4f, 0xd4, 0x0f, 0x31,
  0xb2, 0x5e, 0x68, 0x16, 0xd6, 0xd4, 0x99, 0xc1, 0xab, 0x90, 0x49, 0x29, 0x00, 0x63, 0x5e, 0x66]

/-- The one block that FIPS 180-4 compresses for "abc". -/
def block_abc : List Nat := msg_abc ++ [0x80] ++ List.replicate 52 0 ++ be64 24

/-- The number that a sequence of bytes spells when it is read most
significant byte first. -/
def be_value (bytes : List Nat) : Nat :=
  bytes.foldl (fun acc b => acc * 256 + b) 0

/-- The variables of `sha256` when the block loop is entered (lines 79-87):
the state is the initial state, nothing has been consumed or compressed. -/
def init_ctx (message : List Nat) (len : Nat) (block0 : List Nat) : Ctx :=
  { state := init_state, block := block0, block_len := 0, remaining := len,
    message := message, calls := [] }

/-- The shift amounts with which the code uses `ROTR`: those of `Sigma0`,
`Sigma1`, `sigma0` and `sigma1`. -/
def rotr_amounts : List Nat := [2, 13, 22, 6, 11, 25, 7, 18, 17, 19]

/-- The number of set bits among the 32 bits of a word. -/
def popcount32 (x : Nat) : Nat := (List.range 32).countP fun j => x.testBit j

/-- The first 64 prime numbers, 2 to 311. -/
def first_primes : List Nat := [
  2, 3, 5, 7, 11, 13, 17, 19, 23, 29, 31, 37, 41, 43, 47, 53,
  59, 61, 67, 71, 73, 79, 83, 89, 97, 101, 103, 107, 109, 113, 127, 131,
  137, 139, 149, 151, 157, 163, 167, 173, 179, 181, 191, 193, 197, 199, 211, 223,
  227, 229, 233, 239, 241, 251, 257, 263, 269, 271, 277, 281, 283, 293, 307, 311]

/-- Primality by trial division: `p >= 2` and no `d` with `2 <= d < p`
divides `p`. -/
def is_prime (p : Nat) : Bool :=
  decide (2 ≤ p) && (List.range p).all fun d => decide (d < 2) || decide (p % d ≠ 0)

/-- The property that makes `c` the first 32 bits of the fractional part of
the cube root of `p`, in integer arithmetic: with `m` the integer part of the
cube root, `(m * 2^32 + c)^3 <= p * 2^96 < (m * 2^32 + c + 1)^3`. -/
def is_cbrt_fraction (p c : Nat) : Prop :=
  c < 2 ^ 32 ∧ ∃ m, m < 7 ∧ m ^ 3 ≤ p ∧ p < (m + 1) ^ 3 ∧
    (m * 2 ^ 32 + c) ^ 3 ≤ p * 2 ^ 96 ∧ p * 2 ^ 96 < (m * 2 ^ 32 + c + 1) ^ 3

instance (p c : Nat) : Decidable (is_cbrt_fraction p c) := by
  unfold is_cbrt_fraction
  infer_instance

/-! ## `print_hash` and `main` (lines 127-147)

Standard output is a list of characters, one for each byte written. -/

/-- The conversion `%02x` of `printf`, modelled from the C standard: the
value in lowercase hexadecimal, padded on the left with `0` to at least two
characters. -/
def fmt_02x (v : Nat) : List Char :=
  List.replicate (2 - (Nat.toDigits 16 v).length) '0' ++ Nat.toDigits 16 v

/-- The loop of lines 128-130, `n` iterations starting at index `i`; `out` is
what has been printed so far. -/
def print_hash_loop (hash : List Nat) : Nat → Nat → List Char → List Char
  | 0, _, out => out
  | n + 1, i, out => print_hash_loop hash n (i + 1) (out ++ fmt_02x (hash.getD i 0))

/-- The function `print_hash(hash)`: what it writes to standard output. -/
def print_hash (hash : List Nat) : List Char :=
  print_hash_loop hash 32 0 [] ++ [Char.ofNat 10]

/-- The function `strlen`: the number of bytes before the first zero byte. -/
def strlen (s : List Nat) : Nat := (s.takeWhile fun b => b ≠ 0).length

/-- The conversion `%s` of `printf`: the bytes before the first zero byte. -/
def fmt_s (s : List Nat) : List Char := (s.takeWhile fun b => b ≠ 0).map Char.ofNat

/-- What a run of `main` does: its exit status, what it writes to standard
output, and the calls `sha256(message, len, ..)` it makes. -/
structure Run where
  status : Nat
  stdout : List Char
  hashed : List (List Nat × Nat)
deriving DecidableEq

/-- The function `main(argc, argv)`: `argv` holds the memory of each argument
string (its bytes and the terminating zero), `argc` is its length; `block0`
and `hash0` are the initial contents of the uninitialised arrays. When `argv`
is empty the program name printed by the usage line is taken to be empty. -/
def main (argv : List (List Nat)) (block0 hash0 : List Nat) : Option Run :=
  if argv.length < 2 then
    some { status := 1,
           stdout := "Usage: ".toList ++ fmt_s (argv.getD 0 []) ++
             " \"message to hash\"".toList ++ [Char.ofNat 10],
           hashed := [] }
  else
    (sha256 (argv.getD 1 []) (strlen (argv.getD 1 [])) block0 hash0).map fun hash =>
      { status := 0,
        stdout := "SHA-256 hash of \"".toList ++ fmt_s (argv.getD 1 []) ++
          "\":".toList ++ [Char.ofNat 10] ++ print_hash hash,
        hashed := [(argv.getD 1 [], strlen (argv.getD 1 []))] }

/-- The sixteen lowercase hexadecimal digits. -/
def hex_digits : List Char := "0123456789abcdef".toList

/-- The value of a lowercase hexadecimal digit. -/
def hex_value (c : Char) : Nat :=
  if c.toNat < 58 then c.toNat - 48 else c.toNat - 87

/-- The bytes that a string of hexadecimal digits spells, two digits for each
byte, high nibble first. -/
def decode_hex : List Char → List Nat
  | a :: b :: rest => (hex_value a * 16 + hex_value b) :: decode_hex rest
  | _ => []

/-- The memory of the C string with the given text: its bytes and the
terminating zero. -/
def c_string (s : String) : List Nat := s.toList.map Char.toNat ++ [0]

/-! ## The same code with every array access checked

In the functions below a read or a write outside the array yields `none`.
The memory at `message` holds the readable bytes and nothing else, so a read
past them yields `none` as well. -/

/-- A read `a[i]`, defined only inside the array. -/
def rd (a : List Nat) (i : Nat) : Option Nat := a[i]?

/-- A write `a[i] = v`, defined only inside the array. -/
def wr (a : List Nat) (i v : Nat) : Option (List Nat) :=
  if i < a.length then some (a.set i v) else none

/-- The index `i - d` of an `int` expression: below zero it is outside every
array. -/
def sub_index (i d : Nat) : Option Nat := if d ≤ i then some (i - d) else none

/-- Line 46 with checked reads of `block`. -/
def pack_word_checked (block : List Nat) (i : Nat) : Option Nat := do
  let b0 ← rd block (i * 4)
  let b1 ← rd block (i * 4 + 1)
  let b2 ← rd block (i * 4 + 2)
  let b3 ← rd block (i * 4 + 3)
  pure (((b0 <<< 24) ||| (b1 <<< 16) ||| (b2 <<< 8) ||| b3) % 2 ^ 32)

/-- The loop of lines 45-47 with checked accesses. -/
def schedule_pack_checked (block : List Nat) : Nat → Nat → List Nat → Option (List Nat)
  | 0, _, w => some w
  | n + 1, i, w => do
    let v ← pack_word_checked block i
    let w ← wr w i v
    schedule_pack_checked block n (i + 1) w

/-- Line 49 with checked reads of `w`. -/
def expand_word_checked (w : List Nat) (i : Nat) : Option Nat := do
  let w2 ← (sub_index i 2).bind (rd w)
  let w7 ← (sub_index i 7).bind (rd w)
  let w15 ← (sub_index i 15).bind (rd w)
  let w16 ← (sub_index i 16).bind (rd w)
  pure (add32 (add32 (add32 (sigma1 w2) w7) (sigma0 w15)) w16)

/-- The loop of lines 48-50 with checked accesses. -/
def schedule_expand_checked : Nat → Nat → List Nat → Option (List Nat)
  | 0, _, w => some w
  | n + 1, i, w => do
    let v ← expand_word_checked w i
    let w ← wr w i v
    schedule_expand_checked n (i + 1) w

/-- The body of the main loop (lines 54-63) with checked reads of `k` and
`w`. -/
def round_checked (w : List Nat) (i : Nat) (r : Regs) : Option Regs := do
  let ki ← rd k i
  let wi ← rd w i
  let t1 := add32 (add32 (add32 (add32 r.h (Sigma1 r.e)) (Ch r.e r.f r.g)) ki) wi
  let t2 := add32 (Sigma0 r.a) (Maj r.a r.b r.c)
  pure { h := r.g, g := r.f, f := r.e, e := add32 r.d t1, d := r.c, c := r.b, b := r.a,
         a := add32 t1 t2 }

/-- The main loop (lines 53-64) with checked accesses. -/
def rounds_checked (w : List Nat) : Nat → Nat → Regs → Option Regs
  | 0, _, r => some r
  | n + 1, i, r => do
    let r ← round_checked w i r
    rounds_checked w n (i + 1) r

/-- Lines 35-42 with checked reads of `state`. -/
def load_regs_checked (state : List Nat) : Option Regs := do
  let a ← rd state 0
  let b ← rd state 1
  let c ← rd state 2
  let d ← rd state 3
  let e ← rd state 4
  let f ← rd state 5
  let g ← rd state 6
  let h ← rd state 7
  pure { a := a, b := b, c := c, d := d, e := e, f := f, g := g, h := h }

/-- The statement `state[i] += v` with checked accesses. -/
def add_to (state : List Nat) (i v : Nat) : Option (List Nat) := do
  let s ← rd state i
  wr state i (add32 s v)

/-- Lines 67-74 with checked accesses. -/
def add_regs_checked (state : List Nat) (r : Regs) : Option (List Nat) := do
  let state ← add_to state 0 r.a
  let state ← add_to state 1 r.b
  let state ← add_to state 2 r.c
  let state ← add_to state 3 r.d
  let state ← add_to state 4 r.e
  let state ← add_to state 5 r.f
  let state ← add_to state 6 r.g
  add_to state 7 r.h

/-- The function `sha256_transform` with every access to `state`, `block`,
`w` and `k` checked. -/
def sha256_transform_checked (state block : List Nat) : Option (List Nat) := do
  let r ← load_regs_checked state
  let w ← schedule_pack_checked block 16 0 (List.replicate 64 0)
  let w ← schedule_expand_checked 48 16 w
  let r ← rounds_checked w 64 0 r
  add_regs_checked state r

/-- The call `sha256_transform(state, block)` with checked accesses. -/
def call_transform_checked (c : Ctx) : Option Ctx := do
  let state ← sha256_transform_checked c.state c.block
  pure { c with state := state, calls := c.calls ++ [c.block] }

/-- The call `memcpy(block, message, n)`: it reads `message[0..n-1]` and
writes `block[0..n-1]`. -/
def memcpy_checked (block message : List Nat) (n : Nat) : Option (List Nat) :=
  if n ≤ message.length ∧ n ≤ block.length then some (memcpy block message n) else none

/-- The statement `block[block_len++] = v` with a checked write. -/
def put_byte_checked (v : Nat) (c : Ctx) : Option Ctx := do
  let block ← wr c.block c.block_len v
  pure { c with block := block, block_len := c.block_len + 1 }

/-- The zero-fill loop with checked writes; `none` also when the fuel does
not suffice. -/
def zero_fill_checked (bound : Nat) : Nat → Ctx → Option Ctx
  | 0, c => if c.block_len < bound then none else some c
  | fuel + 1, c =>
    if c.block_len < bound then (put_byte_checked 0 c).bind (zero_fill_checked bound fuel)
    else some c

/-- The loop of lines 108-110 with checked writes. -/
def store_length_checked (bit_len : Nat) : Nat → Nat → List Nat → Option (List Nat)
  | 0, _, block => some block
  | n + 1, i, block => do
    let block ← wr block (56 + i) ((bit_len >>> (56 - 8 * i)) &&& 0xff)
    store_length_checked bit_len n (i + 1) block

/-- The padding branch, lines 97-111, with checked accesses. -/
def pad_block_checked (bit_len : Nat) (c : Ctx) : Option Ctx := do
  let c ← put_byte_checked 0x80 c
  let c ← if c.block_len > 56 then do
      let c ← zero_fill_checked 64 64 c
      let c ← call_transform_checked c
      pure { c with block_len := 0 }
    else pure c
  let c ← zero_fill_checked 56 56 c
  let block ← store_length_checked bit_len 8 0 c.block
  pure { c with block := block, block_len := 64 }

/-- The body of the block loop, lines 91-114, with checked accesses. -/
def loop_body_checked (bit_len : Nat) (c : Ctx) : Option Ctx := do
  let block_len := if c.remaining < 64 then c.remaining else 64
  let block ← memcpy_checked c.block c.message block_len
  let c := { c with block_len := block_len, block := block,
                    message := c.message.drop block_len,
                    remaining := c.remaining - block_len }
  let c ← if c.block_len < 64 then pad_block_checked bit_len c else pure c
  call_transform_checked c

/-- The block loop with checked accesses. -/
def sha256_loop_checked (bit_len : Nat) : Nat → Ctx → Option Ctx
  | 0, c => if c.remaining > 0 then none else some c
  | fuel + 1, c =>
    if c.remaining > 0 then
      (loop_body_checked bit_len c).bind (sha256_loop_checked bit_len fuel)
    else some c

/-- The output loop, lines 118-123, with checked accesses. -/
def store_hash_checked (state : List Nat) : Nat → Nat → List Nat → Option (List Nat)
  | 0, _, hash => some hash
  | n + 1, i, hash => do
    let s ← rd state i
    let hash ← wr hash (i * 4) ((s >>> 24) &&& 0xff)
    let hash ← wr hash (i * 4 + 1) ((s >>> 16) &&& 0xff)
    let hash ← wr hash (i * 4 + 2) ((s >>> 8) &&& 0xff)
    let hash ← wr hash (i * 4 + 3) (s &&& 0xff)
    store_hash_checked state n (i + 1) hash

/-- The function `sha256` with every array access checked. -/
def sha256_checked (message : List Nat) (len : Nat) (block0 hash0 : List Nat) :
    Option (List Nat) := do
  let c ← sha256_loop_checked ((len * 8) % 2 ^ 64) len (init_ctx message len block0)
  store_hash_checked c.state 8 0 hash0

/-! # Verification -/

/-! ## Word-level facts -/

theorem add32_lt (x y : Nat) : add32 x y < 2 ^ 32 := by
  unfold add32; exact Nat.mod_lt _ (by norm_num)

theorem or_bytes_eq (b0 b1 b2 b3 : Nat) (h1 : b1 < 256) (h2 : b2 < 256) (h3 : b3 < 256) :
    (b0 <<< 24) ||| (b1 <<< 16) ||| (b2 <<< 8) ||| b3 =
      b0 * 2 ^ 24 + b1 * 2 ^ 16 + b2 * 2 ^ 8 + b3 := by
  have e3 : 2 ^ 8 * b2 + b3 = 2 ^ 8 * b2 ||| b3 := Nat.mul_add_lt_is_or (by omega) b2
  have e2 : 2 ^ 16 * b1 + (2 ^ 8 * b2 + b3) = 2 ^ 16 * b1 ||| (2 ^ 8 * b2 + b3) :=
    Nat.mul_add_lt_is_or (by omega) b1
  have e1 : 2 ^ 24 * b0 + (2 ^ 16 * b1 + (2 ^ 8 * b2 + b3)) =
      2 ^ 24 * b0 ||| (2 ^ 16 * b1 + (2 ^ 8 * b2 + b3)) :=
    Nat.mul_add_lt_is_or (by omega) b0
  simp only [Nat.shiftLeft_eq, Nat.or_assoc]
  rw [Nat.mul_comm b0, Nat.mul_comm b1, Nat.mul_comm b2, ← e3, ← e2, ← e1]
  omega

theorem pack_word_eq (block : List Nat) (i : Nat) (hb : ∀ j, block.getD j 0 < 256) :
    pack_word block i = block.getD (4 * i) 0 * 2 ^ 24 + block.getD (4 * i + 1) 0 * 2 ^ 16 +
      block.getD (4 * i + 2) 0 * 2 ^ 8 + block.getD (4 * i + 3) 0 := by
  have h0 := hb (4 * i)
  have h1 := hb (4 * i + 1)
  have h2 := hb (4 * i + 2)
  have h3 := hb (4 * i + 3)
  unfold pack_word
  rw [Nat.mul_comm i 4, or_bytes_eq _ _ _ _ h1 h2 h3]
  omega

theorem not32_eq (x : Nat) (hx : x < 2 ^ 32) : not32 x = 2 ^ 32 - 1 - x := by
  unfold not32
  apply Nat.eq_of_testBit_eq
  intro i
  have h : 2 ^ 32 - 1 - x = 2 ^ 32 - (x + 1) := by omega
  rw [h, Nat.testBit_two_pow_sub_succ hx, Nat.testBit_xor, Nat.testBit_two_pow_sub_one]
  by_cases hi : i < 32
  · simp [hi]
  · have : x.testBit i = false := Nat.testBit_lt_two_pow (lt_of_lt_of_le hx (Nat.pow_le_pow_right (by norm_num) (by omega)))
    simp [hi, this]

/-! ## The message schedule -/

theorem schedule_pack_length (block : List Nat) (n i : Nat) (w : List Nat) :
    (schedule_pack block n i w).length = w.length := by
  induction n generalizing i w with
  | zero => rfl
  | succ n ih => simp [schedule_pack, ih]

theorem schedule_pack_getD (block : List Nat) (n i : Nat) (w : List Nat) (j : Nat) :
    (schedule_pack block n i w).getD j 0 =
      if i ≤ j ∧ j < i + n ∧ j < w.length then pack_word block j else w.getD j 0 := by
  induction n generalizing i w with
  | zero => simp only [schedule_pack]; rw [if_neg (by omega)]
  | succ n ih =>
    simp only [schedule_pack, ih, List.length_set]
    by_cases hj : j = i
    · subst hj
      by_cases hl : j < w.length
      · simp [hl, List.getD_eq_getElem?_getD, List.getElem?_set]
      · simp [hl, List.getD_eq_getElem?_getD, List.getElem?_set,
          List.getElem?_eq_none (not_lt.mp hl)]
    · have : (w.set i (pack_word block i)).getD j 0 = w.getD j 0 := by
        simp [List.getD_eq_getElem?_getD, List.getElem?_set, Ne.symm hj]
      rw [this]
      by_cases h1 : i + 1 ≤ j ∧ j < i + 1 + n ∧ j < w.length
      · rw [if_pos h1, if_pos ⟨by omega, by omega, h1.2.2⟩]
      · rw [if_neg h1, if_neg (by omega)]

theorem schedule_expand_length (n i : Nat) (w : List Nat) :
    (schedule_expand n i w).length = w.length := by
  induction n generalizing i w with
  | zero => rfl
  | succ n ih => simp [schedule_expand, ih]

theorem schedule_expand_below (n i : Nat) (w : List Nat) (j : Nat) (hj : j < i) :
    (schedule_expand n i w).getD j 0 = w.getD j 0 := by
  induction n generalizing i w with
  | zero => rfl
  | succ n ih =>
    simp only [schedule_expand]
    rw [ih (i + 1) _ (by omega)]
    simp [List.getD_eq_getElem?_getD, List.getElem?_set, show i ≠ j by omega]

theorem expand_word_congr (w w' : List Nat) (i : Nat) (hi : 16 ≤ i)
    (h : ∀ j, j < i → w.getD j 0 = w'.getD j 0) : expand_word w i = expand_word w' i := by
  unfold expand_word
  rw [h (i - 2) (by omega), h (i - 7) (by omega), h (i - 15) (by omega), h (i - 16) (by omega)]

theorem schedule_expand_getD (n i : Nat) (w : List Nat) (hi : 16 ≤ i) (j : Nat)
    (h1 : i ≤ j) (h2 : j < i + n) (h3 : j < w.length) :
    (schedule_expand n i w).getD j 0 = expand_word (schedule_expand n i w) j := by
  induction n generalizing i w with
  | zero => omega
  | succ n ih =>
    simp only [schedule_expand]
    by_cases hj : j = i
    · subst hj
      rw [schedule_expand_below _ _ _ _ (by omega)]
      have : (w.set j (expand_word w j)).getD j 0 = expand_word w j := by
        simp [List.getD_eq_getElem?_getD, List.getElem?_set, h3]
      rw [this]
      apply expand_word_congr _ _ _ hi
      intro t ht
      rw [schedule_expand_below _ _ _ _ (by omega)]
      simp [List.getD_eq_getElem?_getD, List.getElem?_set, show j ≠ t by omega]
    · exact ih (i + 1) _ (by omega) (by omega) (by omega) (by simpa using h3)

theorem message_schedule_length (w0 block : List Nat) :
    (message_schedule w0 block).length = w0.length := by
  simp [message_schedule, schedule_expand_length, schedule_pack_length]

theorem message_schedule_low (w0 block : List Nat) (i : Nat) (hi : i < 16)
    (hw : 16 ≤ w0.length) : (message_schedule w0 block).getD i 0 = pack_word block i := by
  unfold message_schedule
  rw [schedule_expand_below _ _ _ _ hi, schedule_pack_getD, if_pos ⟨by omega, by omega, by omega⟩]

theorem message_schedule_high (w0 block : List Nat) (i : Nat) (h1 : 16 ≤ i) (h2 : i < 64)
    (hw : 64 ≤ w0.length) :
    (message_schedule w0 block).getD i 0 = expand_word (message_schedule w0 block) i := by
  unfold message_schedule
  exact schedule_expand_getD 48 16 _ (le_refl _) i h1 (by omega)
    (by rw [schedule_pack_length]; omega)

/-- The schedule does not depend on what the array `w` held before: every
entry is written before it is read. -/
theorem message_schedule_indep (w0 w0' block : List Nat) (hw : w0.length = 64)
    (hw' : w0'.length = 64) : message_schedule w0 block = message_schedule w0' block := by
  have key : ∀ n, ∀ j, j < n → j < 64 →
      (message_schedule w0 block).getD j 0 = (message_schedule w0' block).getD j 0 := by
    intro n
    induction n with
    | zero => intro j hj; omega
    | succ n ih =>
      intro j hj hj64
      by_cases hlt : j < n
      · exact ih j hlt hj64
      · have hjn : j = n := by omega
        subst hjn
        by_cases h16 : j < 16
        · rw [message_schedule_low _ _ _ h16 (by omega),
            message_schedule_low _ _ _ h16 (by omega)]
        · rw [message_schedule_high _ _ _ (by omega) hj64 (by omega),
            message_schedule_high _ _ _ (by omega) hj64 (by omega)]
          exact expand_word_congr _ _ _ (by omega) (fun t ht => ih t ht (by omega))
  apply List.ext_getElem
  · rw [message_schedule_length, message_schedule_length, hw, hw']
  · intro n h1 h2
    have hn : n < 64 := by rw [message_schedule_length, hw] at h1; exact h1
    have := key (n + 1) n (by omega) hn
    rwa [List.getD_eq_getElem _ _ h1, List.getD_eq_getElem _ _ h2] at this

theorem round_eq_round_step (w : List Nat) (i : Nat) (r : Regs) :
    round w i r = round_step w r i := by
  simp only [round, round_step, add32, Regs.mk.injEq]
  refine ⟨?_, trivial, trivial, trivial, ?_, trivial, trivial, trivial⟩ <;> omega

theorem rounds_eq_foldl (w : List Nat) (n i : Nat) (r : Regs) :
    rounds w n i r = (List.range' i n).foldl (round_step w) r := by
  induction n generalizing i r with
  | zero => rfl
  | succ n ih => simp [rounds, List.range'_succ, ih, round_eq_round_step]

theorem rounds_eq_spec (w : List Nat) (r : Regs) : rounds w 64 0 r = rounds_spec w r := by
  rw [rounds_eq_foldl, rounds_spec, List.range_eq_range']

/-- C8: the message schedule built by `sha256_transform` from a 64-byte block.
Entries 0..15 are the block bytes packed big-endian four at a time, entries
16..63 obey `w[i] = (sigma1(w[i-2]) + w[i-7] + sigma0(w[i-15]) + w[i-16]) mod 2^32`,
with `sigma0(x) = rotr(x,7) xor rotr(x,18) xor (x >> 3)` and
`sigma1(x) = rotr(x,17) xor rotr(x,19) xor (x >> 10)`; this holds whatever the
array `w` held on entry, and it is the schedule the rounds of
`sha256_transform` consume. -/
theorem message_schedule_spec (w0 block : List Nat) (hw : w0.length = 64)
    (_hlen : block.length = 64) (hb : ∀ b ∈ block, b < 256) :
    (∀ state, sha256_transform state block =
        add_regs state (rounds (message_schedule w0 block) 64 0 (load_regs state))) ∧
    (message_schedule w0 block).length = 64 ∧
    (∀ i, i < 16 → (message_schedule w0 block).getD i 0 =
        block.getD (4 * i) 0 * 2 ^ 24 + block.getD (4 * i + 1) 0 * 2 ^ 16 +
          block.getD (4 * i + 2) 0 * 2 ^ 8 + block.getD (4 * i + 3) 0) ∧
    (∀ i, 16 ≤ i → i < 64 → (message_schedule w0 block).getD i 0 =
        (sigma1 ((message_schedule w0 block).getD (i - 2) 0) +
          (message_schedule w0 block).getD (i - 7) 0 +
          sigma0 ((message_schedule w0 block).getD (i - 15) 0) +
          (message_schedule w0 block).getD (i - 16) 0) % 2 ^ 32) ∧
    (∀ x, sigma0 x = ROTR x 7 ^^^ ROTR x 18 ^^^ (x >>> 3)) ∧
    (∀ x, sigma1 x = ROTR x 17 ^^^ ROTR x 19 ^^^ (x >>> 10)) := by
  have hb' : ∀ j, block.getD j 0 < 256 := by
    intro j
    by_cases hj : j < block.length
    · rw [List.getD_eq_getElem _ _ hj]; exact hb _ (List.getElem_mem _)
    · rw [List.getD_eq_default _ _ (not_lt.mp hj)]; norm_num
  refine ⟨?_, ?_, ?_, ?_, fun _ => rfl, fun _ => rfl⟩
  · intro state
    rw [sha256_transform, message_schedule_indep w0 (List.replicate 64 0) block hw (by simp)]
  · rw [message_schedule_length, hw]
  · intro i hi
    rw [message_schedule_low _ _ _ hi (by omega), pack_word_eq _ _ hb']
  · intro i h1 h2
    rw [message_schedule_high _ _ _ h1 h2 (by omega)]
    simp only [expand_word, add32]
    omega

/-- C9: `sha256_transform` leaves the state equal to `s + R` element-wise
modulo `2^32`, where `R` is the result of the 64 round steps
`T1 = h + Sigma1(e) + Ch(e,f,g) + k[i] + w[i]`, `T2 = Sigma0(a) + Maj(a,b,c)`,
`(a,..,h) := (T1+T2, a, b, c, d+T1, e, f, g)` applied for `i = 0..63` to the
registers initialised to `s`; `Sigma0`, `Sigma1`, `Ch`, `Maj` are the stated
bit functions (`not` being the complement within 32 bits). -/
theorem sha256_transform_spec (s0 s1 s2 s3 s4 s5 s6 s7 : Nat) (block : List Nat) :
    sha256_transform [s0, s1, s2, s3, s4, s5, s6, s7] block =
      [(s0 + (rounds_spec (message_schedule (List.replicate 64 0) block)
          ⟨s0, s1, s2, s3, s4, s5, s6, s7⟩).a) % 2 ^ 32,
       (s1 + (rounds_spec (message_schedule (List.replicate 64 0) block)
          ⟨s0, s1, s2, s3, s4, s5, s6, s7⟩).b) % 2 ^ 32,
       (s2 + (rounds_spec (message_schedule (List.replicate 64 0) block)
          ⟨s0, s1, s2, s3, s4, s5, s6, s7⟩).c) % 2 ^ 32,
       (s3 + (rounds_spec (message_schedule (List.replicate 64 0) block)
          ⟨s0, s1, s2, s3, s4, s5, s6, s7⟩).d) % 2 ^ 32,
       (s4 + (rounds_spec (message_schedule (List.replicate 64 0) block)
          ⟨s0, s1, s2, s3, s4, s5, s6, s7⟩).e) % 2 ^ 32,
       (s5 + (rounds_spec (message_schedule (List.replicate 64 0) block)
          ⟨s0, s1, s2, s3, s4, s5, s6, s7⟩).f) % 2 ^ 32,
       (s6 + (rounds_spec (message_schedule (List.replicate 64 0) block)
          ⟨s0, s1, s2, s3, s4, s5, s6, s7⟩).g) % 2 ^ 32,
       (s7 + (rounds_spec (message_schedule (List.replicate 64 0) block)
          ⟨s0, s1, s2, s3, s4, s5, s6, s7⟩).h) % 2 ^ 32] ∧
    (∀ w r i, round_step w r i =
      { a := ((r.h + Sigma1 r.e + Ch r.e r.f r.g + k.getD i 0 + w.getD i 0) % 2 ^ 32 +
              (Sigma0 r.a + Maj r.a r.b r.c) % 2 ^ 32) % 2 ^ 32,
        b := r.a, c := r.b, d := r.c,
        e := (r.d + (r.h + Sigma1 r.e + Ch r.e r.f r.g + k.getD i 0 + w.getD i 0) % 2 ^ 32)
              % 2 ^ 32,
        f := r.e, g := r.f, h := r.g }) ∧
    (∀ x, Sigma0 x = ROTR x 2 ^^^ ROTR x 13 ^^^ ROTR x 22) ∧
    (∀ x, Sigma1 x = ROTR x 6 ^^^ ROTR x 11 ^^^ ROTR x 25) ∧
    (∀ x y z, x < 2 ^ 32 → Ch x y z = (x &&& y) ^^^ ((2 ^ 32 - 1 - x) &&& z)) ∧
    (∀ x y z, Maj x y z = (x &&& y) ^^^ (x &&& z) ^^^ (y &&& z)) := by
  refine ⟨?_, fun _ _ _ => rfl, fun _ => rfl, fun _ => rfl, ?_, fun _ _ _ => rfl⟩
  · rw [sha256_transform, rounds_eq_spec]
    simp [add_regs, load_regs, add32]
  · intro x y z hx
    rw [Ch, not32_eq x hx]

/-! ## The output loop -/

theorem apply_writes_append (hash : List Nat) (ws ws' : List (Nat × Nat)) :
    apply_writes hash (ws ++ ws') = apply_writes (apply_writes hash ws) ws' := by
  simp [apply_writes, List.foldl_append]

theorem apply_writes_length (hash : List Nat) (ws : List (Nat × Nat)) :
    (apply_writes hash ws).length = hash.length := by
  induction ws generalizing hash with
  | nil => rfl
  | cons p ws ih =>
    have : apply_writes hash (p :: ws) = apply_writes (hash.set p.1 p.2) ws := rfl
    rw [this, ih, List.length_set]

theorem hash_writes_at_getElem? (state hash : List Nat) (i j : Nat) :
    (apply_writes hash (hash_writes_at state i))[j]? =
      if 4 * i ≤ j ∧ j < 4 * i + 4 ∧ j < hash.length then some (state_byte state j)
      else hash[j]? := by
  simp only [apply_writes, hash_writes_at, List.foldl_cons, List.foldl_nil, List.getElem?_set,
    List.length_set]
  by_cases h0 : j = i * 4
  · subst h0
    by_cases hl : i * 4 < hash.length
    · simp [hl, state_byte, show i * 4 / 4 = i by omega, show i * 4 % 4 = 0 by omega,
        show 4 * i ≤ i * 4 by omega, show i * 4 < 4 * i + 4 by omega]
    · simp [hl, List.getElem?_eq_none (not_lt.mp hl)]
  by_cases h1 : j = i * 4 + 1
  · subst h1
    by_cases hl : i * 4 + 1 < hash.length
    · simp [hl, state_byte, show (i * 4 + 1) / 4 = i by omega, show (i * 4 + 1) % 4 = 1 by omega,
        show 4 * i ≤ i * 4 + 1 by omega, show i * 4 < 4 * i + 3 by omega]
    · simp [hl, List.getElem?_eq_none (not_lt.mp hl)]
  by_cases h2 : j = i * 4 + 2
  · subst h2
    by_cases hl : i * 4 + 2 < hash.length
    · simp [hl, state_byte, show (i * 4 + 2) / 4 = i by omega, show (i * 4 + 2) % 4 = 2 by omega,
        show 4 * i ≤ i * 4 + 2 by omega, show i * 4 < 4 * i + 2 by omega]
    · simp [hl, List.getElem?_eq_none (not_lt.mp hl)]
  by_cases h3 : j = i * 4 + 3
  · subst h3
    by_cases hl : i * 4 + 3 < hash.length
    · simp [hl, state_byte, show (i * 4 + 3) / 4 = i by omega, show (i * 4 + 3) % 4 = 3 by omega,
        show 4 * i ≤ i * 4 + 3 by omega, show i * 4 < 4 * i + 1 by omega]
    · simp [hl, List.getElem?_eq_none (not_lt.mp hl)]
  rw [if_neg (Ne.symm h3), if_neg (Ne.symm h2), if_neg (Ne.symm h1), if_neg (Ne.symm h0),
    if_neg (by omega)]

theorem hash_writes_getElem? (state : List Nat) (n i : Nat) (hash : List Nat) (j : Nat) :
    (apply_writes hash (hash_writes state n i))[j]? =
      if 4 * i ≤ j ∧ j < 4 * (i + n) ∧ j < hash.length then some (state_byte state j)
      else hash[j]? := by
  induction n generalizing i hash with
  | zero =>
    rw [if_neg (by omega)]
    rfl
  | succ n ih =>
    rw [hash_writes, apply_writes_append, ih, apply_writes_length, hash_writes_at_getElem?]
    by_cases h1 : 4 * (i + 1) ≤ j ∧ j < 4 * (i + 1 + n) ∧ j < hash.length
    · rw [if_pos h1, if_pos (by omega)]
    · rw [if_neg h1]
      by_cases h2 : 4 * i ≤ j ∧ j < 4 * i + 4 ∧ j < hash.length
      · rw [if_pos h2, if_pos (by omega)]
      · rw [if_neg h2, if_neg (by omega)]

theorem state_byte_lt (state : List Nat) (j : Nat) : state_byte state j < 256 := by
  unfold state_byte
  exact lt_of_le_of_lt Nat.and_le_right (by norm_num)

theorem hash_writes_indices (state : List Nat) :
    (hash_writes state 8 0).map Prod.fst = List.range 32 := by
  simp [hash_writes, hash_writes_at]
  decide

theorem hash_writes_values (state : List Nat) (n i : Nat) :
    ∀ p ∈ hash_writes state n i, p.2 < 256 := by
  induction n generalizing i with
  | zero => simp [hash_writes]
  | succ n ih =>
    intro p hp
    rw [hash_writes, List.mem_append] at hp
    rcases hp with hp | hp
    · simp only [hash_writes_at, List.mem_cons, List.mem_singleton, List.not_mem_nil,
        or_false] at hp
      rcases hp with rfl | rfl | rfl | rfl <;>
        exact lt_of_le_of_lt Nat.and_le_right (by norm_num)
    · exact ih _ p hp

/-! ## The statements of the block loop -/

theorem set_at_length (pre rest : List Nat) (v : Nat) (h : 0 < rest.length) :
    (pre ++ rest).set pre.length v = (pre ++ [v]) ++ rest.drop 1 := by
  cases rest with
  | nil => simp at h
  | cons x rest => simp [List.set_append]

theorem zero_fill_stop (bound : Nat) (c : Ctx) (pre rest : List Nat)
    (hb : c.block = pre ++ rest) (hl : c.block_len = pre.length) (hle : bound ≤ pre.length) :
    c = { c with block := pre ++ List.replicate (bound - pre.length) 0 ++
                   rest.drop (bound - pre.length),
                 block_len := max pre.length bound } := by
  cases c
  simp only [Ctx.mk.injEq] at *
  simp [hb, hl, Nat.sub_eq_zero_of_le hle, hle]

theorem zero_fill_eq (bound fuel : Nat) (c : Ctx) (pre rest : List Nat)
    (hb : c.block = pre ++ rest) (hl : c.block_len = pre.length)
    (hr : bound ≤ pre.length + rest.length) (hf : bound - pre.length ≤ fuel) :
    zero_fill bound fuel c =
      { c with block := pre ++ List.replicate (bound - pre.length) 0 ++
                 rest.drop (bound - pre.length),
               block_len := max pre.length bound } := by
  induction fuel generalizing c pre rest with
  | zero => exact zero_fill_stop bound c pre rest hb hl (by omega)
  | succ fuel ih =>
    rw [zero_fill]
    by_cases hlt : c.block_len < bound
    · rw [if_pos hlt]
      have hrest : 0 < rest.length := by omega
      have hput : (put_byte 0 c).block = (pre ++ [0]) ++ rest.drop 1 := by
        simp only [put_byte, hb, hl]
        exact set_at_length pre rest 0 hrest
      rw [ih (put_byte 0 c) (pre ++ [0]) (rest.drop 1) hput (by simp [put_byte, hl])
        (by simp only [List.length_append, List.length_singleton, List.length_drop]; omega)
        (by simp only [List.length_append, List.length_singleton]; omega)]
      have e1 : bound - pre.length = (bound - (pre.length + 1)) + 1 := by omega
      simp only [put_byte, List.length_append, List.length_singleton, List.drop_drop,
        Ctx.mk.injEq, true_and]
      refine ⟨?_, ?_, trivial⟩
      · rw [e1, List.replicate_succ]
        simp [Nat.add_comm]
      · rw [max_eq_right (by omega), max_eq_right (by omega)]
    · rw [if_neg hlt]
      exact zero_fill_stop bound c pre rest hb hl (by omega)

/-- With the fuel that `pad_block` gives it, the zero-fill loop stops because
its condition `block_len < bound` has become false. -/
theorem zero_fill_exit (bound fuel : Nat) (c : Ctx) (hf : bound - c.block_len ≤ fuel) :
    ¬ (zero_fill bound fuel c).block_len < bound := by
  induction fuel generalizing c with
  | zero => simp only [zero_fill]; omega
  | succ fuel ih =>
    rw [zero_fill]
    by_cases h : c.block_len < bound
    · rw [if_pos h]
      exact ih (put_byte 0 c) (by simp only [put_byte]; omega)
    · rw [if_neg h]; exact h

theorem store_length_eq (bit_len n i : Nat) (pre rest : List Nat) (hp : pre.length = 56 + i)
    (hr : n ≤ rest.length) :
    store_length bit_len n i (pre ++ rest) =
      pre ++ (List.range' i n).map (fun t => (bit_len >>> (56 - 8 * t)) &&& 0xff) ++
        rest.drop n := by
  induction n generalizing i pre rest with
  | zero => simp [store_length]
  | succ n ih =>
    rw [store_length, ← hp, set_at_length pre rest _ (by omega),
      ih (i + 1) _ _ (by simp [hp]; omega) (by simp; omega)]
    simp [List.range'_succ, Nat.add_comm]

theorem put_byte_eq (v : Nat) (c : Ctx) (pre rest : List Nat) (hb : c.block = pre ++ rest)
    (hl : c.block_len = pre.length) (hr : 0 < rest.length) :
    put_byte v c = { c with block := (pre ++ [v]) ++ rest.drop 1, block_len := pre.length + 1 } := by
  simp only [put_byte, hb, hl, set_at_length pre rest v hr]

theorem pad_block_short (bit_len : Nat) (c : Ctx) (M R0 : List Nat) (hb : c.block = M ++ R0)
    (hl : c.block_len = M.length) (h64 : M.length + R0.length = 64) (hs : M.length < 56) :
    pad_block bit_len c =
      { c with block := M ++ [0x80] ++ List.replicate (55 - M.length) 0 ++ len_bytes bit_len,
               block_len := 64 } := by
  unfold pad_block
  rw [put_byte_eq 0x80 c M R0 hb hl (by omega)]
  simp only []
  rw [if_neg (by omega)]
  rw [zero_fill_eq 56 56 _ (M ++ [0x80]) (R0.drop 1) rfl (by simp)
    (by simp only [List.length_append, List.length_singleton, List.length_drop]; omega)
    (by omega)]
  simp only []
  rw [store_length_eq bit_len 8 0 _ _
    (by simp only [List.length_append, List.length_singleton, List.length_replicate]; omega)
    (by simp only [List.length_drop, List.length_append, List.length_singleton]; omega)]
  have e : 56 - (M ++ [0x80]).length = 55 - M.length := by
    simp only [List.length_append, List.length_singleton]; omega
  have d : List.drop 8 (List.drop (55 - M.length) (List.drop 1 R0)) = [] := by
    apply List.drop_eq_nil_of_le
    simp only [List.length_drop]; omega
  rw [e, d]
  simp [len_bytes]

theorem pad_block_long (bit_len : Nat) (c : Ctx) (M R0 : List Nat) (hb : c.block = M ++ R0)
    (hl : c.block_len = M.length) (h64 : M.length + R0.length = 64) (hs : 56 ≤ M.length)
    (hlt : M.length < 64) :
    pad_block bit_len c =
      { c with state := sha256_transform c.state
                 (M ++ [0x80] ++ List.replicate (63 - M.length) 0),
               calls := c.calls ++ [M ++ [0x80] ++ List.replicate (63 - M.length) 0],
               block := List.replicate 56 0 ++ len_bytes bit_len,
               block_len := 64 } := by
  unfold pad_block
  rw [put_byte_eq 0x80 c M R0 hb hl (by omega)]
  simp only []
  rw [if_pos (by omega)]
  rw [zero_fill_eq 64 64 _ (M ++ [0x80]) (R0.drop 1) rfl (by simp)
    (by simp only [List.length_append, List.length_singleton, List.length_drop]; omega)
    (by omega)]
  have e : 64 - (M ++ [0x80]).length = 63 - M.length := by
    simp only [List.length_append, List.length_singleton]; omega
  have d : List.drop (63 - M.length) (List.drop 1 R0) = [] := by
    apply List.drop_eq_nil_of_le
    simp only [List.length_drop]; omega
  rw [e, d, List.append_nil]
  simp only [call_transform]
  rw [zero_fill_eq 56 56 _ [] (M ++ [0x80] ++ List.replicate (63 - M.length) 0) rfl rfl
    (by simp only [List.length_append, List.length_singleton, List.length_replicate,
          List.length_nil]; omega) (by simp)]
  simp only []
  rw [store_length_eq bit_len 8 0 _ _
    (by simp)
    (by simp only [List.length_drop, List.length_append, List.length_singleton,
          List.length_replicate, List.length_nil]; omega)]
  have d2 : List.drop 8 (List.drop (56 - ([] : List Nat).length)
      (M ++ [0x80] ++ List.replicate (63 - M.length) 0)) = [] := by
    apply List.drop_eq_nil_of_le
    simp only [List.length_drop, List.length_append, List.length_singleton,
          List.length_replicate, List.length_nil]; omega
  rw [d2]
  simp [len_bytes]

theorem len_bytes_length (bit_len : Nat) : (len_bytes bit_len).length = 8 := by
  simp [len_bytes]

/-- One iteration of the block loop: what it compresses and what it leaves
behind depends on the unconsumed message bytes only, not on what `block`
held before. -/
theorem loop_body_eq (bit_len : Nat) (c : Ctx) (hb : c.block.length = 64)
    (hm : c.remaining ≤ c.message.length) :
    ∃ block', block'.length = 64 ∧ loop_body bit_len c =
      { state := (iteration_blocks bit_len (c.message.take c.remaining)).foldl
                   sha256_transform c.state,
        block := block',
        block_len := 64,
        remaining := c.remaining - 64,
        message := c.message.drop (min c.remaining 64),
        calls := c.calls ++ iteration_blocks bit_len (c.message.take c.remaining) } := by
  have hM : (c.message.take c.remaining).length = c.remaining := by
    rw [List.length_take]; omega
  by_cases h64 : 64 ≤ c.remaining
  · refine ⟨c.message.take 64, by rw [List.length_take]; omega, ?_⟩
    have hd : c.block.drop 64 = [] := List.drop_eq_nil_of_le (by omega)
    simp only [loop_body, iteration_blocks, hM, if_pos h64, if_neg (show ¬ c.remaining < 64 by omega),
      if_neg (show ¬ (64 : Nat) < 64 by omega), call_transform, memcpy, hd, List.append_nil,
      List.take_take, min_eq_left h64, min_eq_right h64, List.foldl_cons, List.foldl_nil]
  · have hr : c.remaining < 64 := by omega
    have hpre : c.remaining - c.remaining = 0 := by omega
    have hl2 : (c.message.take c.remaining).length + (c.block.drop c.remaining).length = 64 := by
      rw [hM, List.length_drop]; omega
    by_cases h56 : c.remaining < 56
    · refine ⟨c.message.take c.remaining ++ [0x80] ++
        List.replicate (55 - c.remaining) 0 ++ len_bytes bit_len, ?_, ?_⟩
      · simp only [List.length_append, hM, List.length_singleton, List.length_replicate,
          len_bytes_length]; omega
      · simp only [loop_body, if_pos hr, memcpy]
        rw [pad_block_short bit_len _ (c.message.take c.remaining) (c.block.drop c.remaining)
          rfl hM.symm hl2 (by omega)]
        simp only [call_transform, iteration_blocks, hM, if_neg h64, if_pos h56, hpre,
          min_eq_left (le_of_lt hr), List.foldl_cons, List.foldl_nil]
        simp
        omega
    · refine ⟨List.replicate 56 0 ++ len_bytes bit_len, ?_, ?_⟩
      · simp only [List.length_append, List.length_replicate, len_bytes_length]
      · simp only [loop_body, if_pos hr, memcpy]
        rw [pad_block_long bit_len _ (c.message.take c.remaining) (c.block.drop c.remaining)
          rfl hM.symm hl2 (by omega) (by omega)]
        simp only [call_transform, iteration_blocks, hM, if_neg h64, if_neg h56, hpre,
          min_eq_left (le_of_lt hr), List.foldl_cons, List.foldl_nil]
        simp
        omega

/-! ## The block loop -/

theorem sha256_loop_eq (bit_len fuel : Nat) (c : Ctx) (hb : c.block.length = 64)
    (hm : c.remaining ≤ c.message.length) (hf : c.remaining ≤ fuel) :
    ∃ c', sha256_loop bit_len fuel c = some c' ∧
      c'.state = (compressed_blocks bit_len fuel (c.message.take c.remaining)).foldl
        sha256_transform c.state ∧
      c'.calls = c.calls ++ compressed_blocks bit_len fuel (c.message.take c.remaining) ∧
      c'.remaining = 0 := by
  induction fuel generalizing c with
  | zero =>
    have h0 : c.remaining = 0 := by omega
    exact ⟨c, by simp [sha256_loop, h0], by simp [compressed_blocks],
      by simp [compressed_blocks], h0⟩
  | succ fuel ih =>
    have hM : (c.message.take c.remaining).length = c.remaining := by
      rw [List.length_take]; omega
    by_cases hpos : c.remaining > 0
    · obtain ⟨block', hlen, hbody⟩ := loop_body_eq bit_len c hb hm
      have hmsg : (c.message.drop (min c.remaining 64)).take (c.remaining - 64) =
          (c.message.take c.remaining).drop 64 := by
        by_cases h64 : 64 ≤ c.remaining
        · rw [min_eq_right h64, List.take_drop, show 64 + (c.remaining - 64) = c.remaining by omega]
        · rw [show c.remaining - 64 = 0 by omega, List.take_zero,
            List.drop_eq_nil_of_le (by omega)]
      obtain ⟨c', h1, h2, h3, h4⟩ := ih (loop_body bit_len c) (by rw [hbody]; exact hlen)
        (by rw [hbody]; simp only [List.length_drop]; omega) (by rw [hbody]; simp only; omega)
      refine ⟨c', ?_, ?_, ?_, h4⟩
      · rw [sha256_loop, if_pos hpos, h1]
      · rw [h2, hbody]
        simp only [hmsg]
        rw [compressed_blocks, hM, if_pos hpos, List.foldl_append]
      · rw [h3, hbody]
        simp only [hmsg]
        rw [compressed_blocks, hM, if_pos hpos, List.append_assoc]
    · have h0 : c.remaining = 0 := by omega
      exact ⟨c, by simp [sha256_loop, h0], by simp [compressed_blocks, h0],
        by simp [compressed_blocks, h0], h0⟩

theorem sha256_run_eq (M rest block0 : List Nat) (hb : block0.length = 64) :
    ∃ c, sha256_run (M ++ rest) M.length block0 = some c ∧ c.state = sha256_state M ∧
      c.calls = sha256_blocks M := by
  obtain ⟨c, h1, h2, h3, _⟩ := sha256_loop_eq ((M.length * 8) % 2 ^ 64) M.length
    { state := init_state, block := block0, block_len := 0, remaining := M.length,
      message := M ++ rest, calls := [] } hb (by simp) (le_refl _)
  refine ⟨c, h1, ?_, ?_⟩
  · rw [h2]; simp [sha256_state, sha256_blocks]
  · rw [h3]; simp [sha256_blocks]

theorem wordState_init : WordState init_state := by
  refine ⟨rfl, ?_⟩
  decide

theorem wordState_add_regs (state : List Nat) (r : Regs) : WordState (add_regs state r) := by
  refine ⟨by simp only [add_regs, List.length_cons, List.length_nil], ?_⟩
  intro x hx
  simp only [add_regs, List.mem_cons, List.mem_singleton, List.not_mem_nil, or_false] at hx
  rcases hx with h | h | h | h | h | h | h | h <;> rw [h] <;> exact add32_lt _ _

theorem wordState_transform (state block : List Nat) :
    WordState (sha256_transform state block) := by
  unfold sha256_transform
  exact wordState_add_regs _ _

theorem wordState_foldl (blocks : List (List Nat)) (state : List Nat) (h : WordState state) :
    WordState (blocks.foldl sha256_transform state) := by
  induction blocks generalizing state with
  | nil => exact h
  | cons b bs ih => exact ih _ (wordState_transform state b)

theorem wordState_sha256_state (M : List Nat) : WordState (sha256_state M) :=
  wordState_foldl _ _ wordState_init

/-! ## Serialisation of the state -/

theorem state_byte_eq (state : List Nat) (j : Nat) :
    state_byte state j = state.getD (j / 4) 0 / 2 ^ (24 - 8 * (j % 4)) % 256 := by
  unfold state_byte
  rw [Nat.shiftRight_eq_div_pow]
  exact Nat.and_pow_two_sub_one_eq_mod _ 8

theorem length_eq_eight (l : List Nat) (h : l.length = 8) :
    ∃ s0 s1 s2 s3 s4 s5 s6 s7, l = [s0, s1, s2, s3, s4, s5, s6, s7] := by
  match l, h with
  | [s0, s1, s2, s3, s4, s5, s6, s7], _ => exact ⟨s0, s1, s2, s3, s4, s5, s6, s7, rfl⟩

theorem digest_bytes_eq_map (state : List Nat) (h : state.length = 8) :
    digest_bytes state = (List.range 32).map (state_byte state) := by
  obtain ⟨s0, s1, s2, s3, s4, s5, s6, s7, rfl⟩ := length_eq_eight state h
  have hr : List.range 32 = [0, 1, 2, 3, 4, 5, 6, 7, 8, 9, 10, 11, 12, 13, 14, 15, 16, 17, 18,
    19, 20, 21, 22, 23, 24, 25, 26, 27, 28, 29, 30, 31] := by decide
  rw [hr]
  simp [digest_bytes, be32, state_byte_eq]

theorem digest_bytes_length (state : List Nat) (h : state.length = 8) :
    (digest_bytes state).length = 32 := by
  rw [digest_bytes_eq_map state h]; simp

theorem apply_writes_digest (state hash0 : List Nat) (hs : state.length = 8)
    (hh : 32 ≤ hash0.length) :
    apply_writes hash0 (hash_writes state 8 0) = digest_bytes state ++ hash0.drop 32 := by
  apply List.ext_getElem?
  intro j
  rw [hash_writes_getElem?]
  by_cases hj : j < 32
  · rw [if_pos ⟨by omega, by omega, by omega⟩,
      List.getElem?_append_left (by rw [digest_bytes_length state hs]; exact hj),
      digest_bytes_eq_map state hs]
    simp [hj]
  · rw [if_neg (by omega),
      List.getElem?_append_right (by rw [digest_bytes_length state hs]; omega),
      digest_bytes_length state hs, List.getElem?_drop]
    congr 1
    omega

/-- What `sha256` returns: the serialised final state in `hash[0..31]`, the
rest of the buffer untouched. Only the first `len` message bytes matter. -/
theorem sha256_eq (M rest block0 hash0 : List Nat) (hb : block0.length = 64)
    (hh : 32 ≤ hash0.length) :
    sha256 (M ++ rest) M.length block0 hash0 =
      some (digest_bytes (sha256_state M) ++ hash0.drop 32) := by
  obtain ⟨c, h1, h2, _⟩ := sha256_run_eq M rest block0 hb
  rw [sha256, h1, Option.map_some', h2,
    apply_writes_digest _ _ (wordState_sha256_state M).1 hh]

/-! ## Termination of the block loop, for every input -/

theorem zero_fill_fields (bound fuel : Nat) (c : Ctx) :
    (zero_fill bound fuel c).state = c.state ∧ (zero_fill bound fuel c).remaining = c.remaining ∧
      (zero_fill bound fuel c).calls = c.calls := by
  induction fuel generalizing c with
  | zero => exact ⟨rfl, rfl, rfl⟩
  | succ fuel ih =>
    rw [zero_fill]
    by_cases h : c.block_len < bound
    · rw [if_pos h]; exact ih (put_byte 0 c)
    · rw [if_neg h]; exact ⟨rfl, rfl, rfl⟩

theorem pad_block_remaining (bit_len : Nat) (c : Ctx) :
    (pad_block bit_len c).remaining = c.remaining := by
  unfold pad_block
  simp only []
  split
  · rw [(zero_fill_fields 56 56 _).2.1]
    simp only [call_transform]
    rw [(zero_fill_fields 64 64 _).2.1]
    rfl
  · rw [(zero_fill_fields 56 56 _).2.1]
    rfl

theorem loop_body_fields (bit_len : Nat) (c : Ctx) :
    WordState (loop_body bit_len c).state ∧
      (loop_body bit_len c).remaining =
        c.remaining - (if c.remaining < 64 then c.remaining else 64) := by
  unfold loop_body
  simp only []
  by_cases h : c.remaining < 64
  · simp only [if_pos h]
    refine ⟨wordState_transform _ _, ?_⟩
    simp only [call_transform]
    rw [pad_block_remaining]
  · simp only [if_neg h, if_neg (show ¬ (64 : Nat) < 64 by omega)]
    exact ⟨wordState_transform _ _, rfl⟩

theorem sha256_loop_total (bit_len fuel : Nat) (c : Ctx) (hf : c.remaining ≤ fuel)
    (hs : WordState c.state) :
    ∃ c', sha256_loop bit_len fuel c = some c' ∧ WordState c'.state := by
  induction fuel generalizing c with
  | zero => exact ⟨c, by simp [sha256_loop, show c.remaining = 0 by omega], hs⟩
  | succ fuel ih =>
    rw [sha256_loop]
    by_cases hpos : c.remaining > 0
    · rw [if_pos hpos]
      have h := loop_body_fields bit_len c
      refine ih _ ?_ h.1
      rw [h.2]
      split <;> omega
    · rw [if_neg hpos]
      exact ⟨c, rfl, hs⟩

/-- The function `sha256` returns on every input: the block loop ends within
`len` iterations, with a state of 8 words. -/
theorem sha256_run_total (message : List Nat) (len : Nat) (block0 : List Nat) :
    ∃ c, sha256_run message len block0 = some c ∧ WordState c.state :=
  sha256_loop_total _ len _ (le_refl _) wordState_init

/-! ## The output of `sha256` -/

theorem word_bytes_roundtrip (x : Nat) (hx : x < 2 ^ 32) :
    x / 2 ^ 24 % 256 * 2 ^ 24 + x / 2 ^ 16 % 256 * 2 ^ 16 + x / 2 ^ 8 % 256 * 2 ^ 8 + x % 256 =
      x := by
  omega

theorem output_getD (state hash0 : List Nat) (hh : 32 ≤ hash0.length) (j : Nat) (hj : j < 32) :
    (apply_writes hash0 (hash_writes state 8 0)).getD j 0 = state_byte state j := by
  rw [List.getD_eq_getElem?_getD, hash_writes_getElem?, if_pos ⟨by omega, by omega, by omega⟩]
  rfl

/-- C6: `sha256` writes exactly 32 bytes of output, for every message and
every length. The writes of the output loop go to the indices 0, 1, .., 31,
each once and in that order, every value written is in 0..255, and on return
the buffer holds those 32 bytes followed by whatever it held at index 32 and
beyond. -/
theorem sha256_writes_32_bytes (message : List Nat) (len : Nat) (block0 hash0 : List Nat)
    (hh : 32 ≤ hash0.length) :
    ∃ c out, sha256_run message len block0 = some c ∧
      sha256 message len block0 hash0 = some out ∧
      out = apply_writes hash0 (hash_writes c.state 8 0) ∧
      (hash_writes c.state 8 0).map Prod.fst = List.range 32 ∧
      (∀ p ∈ hash_writes c.state 8 0, p.2 < 256) ∧
      out.length = hash0.length ∧
      (∀ j, j < 32 → out.getD j 0 = state_byte c.state j ∧ out.getD j 0 < 256) ∧
      out.drop 32 = hash0.drop 32 := by
  obtain ⟨c, hc, hs⟩ := sha256_run_total message len block0
  refine ⟨c, _, hc, by rw [sha256, hc, Option.map_some'], rfl, hash_writes_indices _,
    hash_writes_values _ _ _, apply_writes_length _ _, ?_, ?_⟩
  · intro j hj
    rw [output_getD _ _ hh j hj]
    exact ⟨rfl, state_byte_lt _ _⟩
  · rw [apply_writes_digest _ _ hs.1 hh, List.drop_left' (digest_bytes_length _ hs.1)]

/-- C7: the digest is the big-endian serialisation of the final hash state.
For every `i` in 0..7 the bytes `hash[4i], .., hash[4i+3]` are the four bytes
of the final `state[i]`, most significant first, and reading the 32 output
bytes back as eight big-endian 32-bit words returns the final state. -/
theorem sha256_output_big_endian (message : List Nat) (len : Nat) (block0 hash0 : List Nat)
    (hh : 32 ≤ hash0.length) :
    ∃ c out, sha256_run message len block0 = some c ∧
      sha256 message len block0 hash0 = some out ∧
      c.state.length = 8 ∧
      (∀ i, i < 8 →
        out.getD (4 * i) 0 = c.state.getD i 0 / 2 ^ 24 % 256 ∧
        out.getD (4 * i + 1) 0 = c.state.getD i 0 / 2 ^ 16 % 256 ∧
        out.getD (4 * i + 2) 0 = c.state.getD i 0 / 2 ^ 8 % 256 ∧
        out.getD (4 * i + 3) 0 = c.state.getD i 0 % 256) ∧
      (List.range 8).map (fun i => out.getD (4 * i) 0 * 2 ^ 24 + out.getD (4 * i + 1) 0 * 2 ^ 16 +
        out.getD (4 * i + 2) 0 * 2 ^ 8 + out.getD (4 * i + 3) 0) = c.state := by
  obtain ⟨c, hc, hs⟩ := sha256_run_total message len block0
  have hbytes : ∀ i, i < 8 →
      (apply_writes hash0 (hash_writes c.state 8 0)).getD (4 * i) 0 =
        c.state.getD i 0 / 2 ^ 24 % 256 ∧
      (apply_writes hash0 (hash_writes c.state 8 0)).getD (4 * i + 1) 0 =
        c.state.getD i 0 / 2 ^ 16 % 256 ∧
      (apply_writes hash0 (hash_writes c.state 8 0)).getD (4 * i + 2) 0 =
        c.state.getD i 0 / 2 ^ 8 % 256 ∧
      (apply_writes hash0 (hash_writes c.state 8 0)).getD (4 * i + 3) 0 =
        c.state.getD i 0 % 256 := by
    intro i hi
    rw [output_getD _ _ hh _ (by omega), output_getD _ _ hh _ (by omega),
      output_getD _ _ hh _ (by omega), output_getD _ _ hh _ (by omega)]
    simp only [state_byte_eq, show 4 * i / 4 = i by omega, show (4 * i + 1) / 4 = i by omega,
      show (4 * i + 2) / 4 = i by omega, show (4 * i + 3) / 4 = i by omega,
      show 4 * i % 4 = 0 by omega, show (4 * i + 1) % 4 = 1 by omega,
      show (4 * i + 2) % 4 = 2 by omega, show (4 * i + 3) % 4 = 3 by omega]
    simp
  refine ⟨c, _, hc, by rw [sha256, hc, Option.map_some'], hs.1, hbytes, ?_⟩
  apply List.ext_getElem
  · simp [hs.1]
  · intro i h1 h2
    have hi : i < 8 := by simpa using h1
    obtain ⟨e0, e1, e2, e3⟩ := hbytes i hi
    simp only [List.getElem_map, List.getElem_range]
    rw [e0, e1, e2, e3, List.getD_eq_getElem _ _ h2]
    exact word_bytes_roundtrip _ (hs.2 _ (List.getElem_mem _))

/-! ## Known answers -/

theorem msg_56_eq :
    "abcdbcdecdefdefgefghfghighijhijkijkljklmklmnlmnomnopnopq".toList.map Char.toNat = msg_56 := by
  decide

theorem msg_abc_eq : "abc".toList.map Char.toNat = msg_abc := by
  decide

set_option maxRecDepth 100000 in
theorem sha256_state_abc : digest_bytes (sha256_state msg_abc) = digest_abc := by
  decide!

set_option maxRecDepth 100000 in
theorem sha256_state_56 : digest_bytes (sha256_state msg_56) = digest_56 := by
  decide!

/-- C3: `sha256` applied to the 3-byte message "abc" with length 3 produces
ba7816bf8f01cfea414140de5dae2223b00361a396177a9cb410ff61f20015ad, whatever
follows the message in memory and whatever `block` and `hash` held before. -/
theorem sha256_abc (rest block0 hash0 : List Nat) (hb : block0.length = 64)
    (hh : hash0.length = 32) :
    sha256 ([0x61, 0x62, 0x63] ++ rest) 3 block0 hash0 = some digest_abc := by
  have h := sha256_eq msg_abc rest block0 hash0 hb (by omega)
  rw [sha256_state_abc, List.drop_eq_nil_of_le (by omega), List.append_nil] at h
  exact h

theorem sha256_abc_witness :
    sha256 ([0x61, 0x62, 0x63] ++ [0]) 3 (List.replicate 64 0xaa) (List.replicate 32 0x55) =
      some [0xba, 0x78, 0x16, 0xbf, 0x8f, 0x01, 0xcf, 0xea, 0x41, 0x41, 0x40, 0xde, 0x5d, 0xae,
        0x22, 0x23, 0xb0, 0x03, 0x61, 0xa3, 0x96, 0x17, 0x7a, 0x9c, 0xb4, 0x10, 0xff, 0x61,
        0xf2, 0x00, 0x15, 0xad] :=
  sha256_abc [0] (List.replicate 64 0xaa) (List.replicate 32 0x55) (by simp) (by simp)

/-! ## The padding boundary: 55 and 56 bytes -/

/-- The count `pad_zeros n` is the least number of zero bytes that makes the
padded length a multiple of 64. -/
theorem pad_zeros_least (n : Nat) :
    (n + 1 + pad_zeros n + 8) % 64 = 0 ∧ ∀ z, z < pad_zeros n → (n + 1 + z + 8) % 64 ≠ 0 := by
  unfold pad_zeros
  constructor
  · omega
  · intro z hz
    omega

theorem sha256_blocks_55 (M : List Nat) (h : M.length = 55) :
    sha256_blocks M = [M ++ [0x80] ++ be64 440] := by
  have hd : M.drop 64 = [] := List.drop_eq_nil_of_le (by omega)
  have hl : len_bytes 440 = be64 440 := by decide
  simp [sha256_blocks, h, compressed_blocks, iteration_blocks, hd, hl]

theorem sha256_blocks_56 (M : List Nat) (h : M.length = 56) :
    sha256_blocks M = [M ++ [0x80] ++ List.replicate 7 0, List.replicate 56 0 ++ be64 448] := by
  have hd : M.drop 64 = [] := List.drop_eq_nil_of_le (by omega)
  have hl : len_bytes 448 = be64 448 := by decide
  simp [sha256_blocks, h, compressed_blocks, iteration_blocks, hd, hl]

theorem fips_blocks_55 (M : List Nat) (h : M.length = 55) :
    blocks_of ((fips_pad M).length / 64) (fips_pad M) = [M ++ [0x80] ++ be64 440] := by
  have hp : fips_pad M = M ++ [0x80] ++ be64 440 := by
    simp [fips_pad, h, pad_zeros]
  have hl : (M ++ [0x80] ++ be64 440).length = 64 := by
    simp [h, be64]
  rw [hp, hl]
  simp only [blocks_of, Nat.reduceDiv]
  rw [List.take_of_length_le (le_of_eq hl)]

theorem fips_blocks_56 (M : List Nat) (h : M.length = 56) :
    blocks_of ((fips_pad M).length / 64) (fips_pad M) =
      [M ++ [0x80] ++ List.replicate 7 0, List.replicate 56 0 ++ be64 448] := by
  have hp : fips_pad M =
      (M ++ [0x80] ++ List.replicate 7 0) ++ (List.replicate 56 0 ++ be64 448) := by
    have hr : List.replicate 63 0 = List.replicate 7 0 ++ List.replicate 56 0 := by decide
    simp [fips_pad, h, pad_zeros, hr]
  have hl1 : (M ++ [0x80] ++ List.replicate 7 0).length = 64 := by simp [h]
  have hl2 : (List.replicate 56 0 ++ be64 448).length = 64 := by simp [be64]
  rw [hp, List.length_append, hl1, hl2]
  simp only [blocks_of, Nat.reduceAdd, Nat.reduceDiv]
  rw [List.take_left' hl1, List.drop_left' hl1, List.take_of_length_le (le_of_eq hl2)]

/-- C5: a message of exactly 55 bytes is compressed as one block (the 55
bytes, `0x80`, the 8-byte big-endian value 440), a message of exactly 56 bytes
as two (the 56 bytes, `0x80`, 7 zero bytes; then 56 zero bytes and the 8-byte
big-endian value 448); in both cases the digest is the FIPS 180-4 SHA-256 of
the message, and the 56-byte FIPS vector gives
248d6a61d20638b8e5c026930c3e6039a33ce45964ff2167f6ecedd419db06c1. -/
theorem sha256_len_55_and_56 :
    (∀ M rest block0 hash0 : List Nat, M.length = 55 → block0.length = 64 →
      hash0.length = 32 →
      (sha256_run (M ++ rest) 55 block0).map Ctx.calls = some [M ++ [0x80] ++ be64 440] ∧
      sha256 (M ++ rest) 55 block0 hash0 = some (fips_sha256 M)) ∧
    (∀ M rest block0 hash0 : List Nat, M.length = 56 → block0.length = 64 →
      hash0.length = 32 →
      (sha256_run (M ++ rest) 56 block0).map Ctx.calls =
        some [M ++ [0x80] ++ List.replicate 7 0, List.replicate 56 0 ++ be64 448] ∧
      sha256 (M ++ rest) 56 block0 hash0 = some (fips_sha256 M)) ∧
    (∀ rest block0 hash0 : List Nat, block0.length = 64 → hash0.length = 32 →
      sha256 (msg_56 ++ rest) 56 block0 hash0 = some digest_56) := by
  refine ⟨?_, ?_, ?_⟩
  · intro M rest block0 hash0 hM hb hh
    obtain ⟨c, h1, _, h3⟩ := sha256_run_eq M rest block0 hb
    have h := sha256_eq M rest block0 hash0 hb (by omega)
    rw [hM] at h1 h
    refine ⟨by rw [h1, Option.map_some', h3, sha256_blocks_55 M hM], ?_⟩
    rw [h, List.drop_eq_nil_of_le (by omega), List.append_nil, fips_sha256, fips_blocks_55 M hM,
      sha256_state, sha256_blocks_55 M hM]
  · intro M rest block0 hash0 hM hb hh
    obtain ⟨c, h1, _, h3⟩ := sha256_run_eq M rest block0 hb
    have h := sha256_eq M rest block0 hash0 hb (by omega)
    rw [hM] at h1 h
    refine ⟨by rw [h1, Option.map_some', h3, sha256_blocks_56 M hM], ?_⟩
    rw [h, List.drop_eq_nil_of_le (by omega), List.append_nil, fips_sha256, fips_blocks_56 M hM,
      sha256_state, sha256_blocks_56 M hM]
  · intro rest block0 hash0 hb hh
    have h := sha256_eq msg_56 rest block0 hash0 hb (by omega)
    rw [sha256_state_56, List.drop_eq_nil_of_le (by omega), List.append_nil] at h
    exact h

theorem sha256_len_55_and_56_witness :
    sha256 (List.replicate 55 0x61 ++ [0]) 55 (List.replicate 64 0xaa) (List.replicate 32 0x55) =
      some (fips_sha256 (List.replicate 55 0x61)) ∧
    sha256 (List.replicate 56 0x61 ++ [0]) 56 (List.replicate 64 0xaa) (List.replicate 32 0x55) =
      some (fips_sha256 (List.replicate 56 0x61)) ∧
    sha256 (msg_56 ++ [0]) 56 (List.replicate 64 0xaa) (List.replicate 32 0x55) =
      some digest_56 :=
  ⟨(sha256_len_55_and_56.1 (List.replicate 55 0x61) [0] (List.replicate 64 0xaa)
      (List.replicate 32 0x55) (by simp) (by simp) (by simp)).2,
   (sha256_len_55_and_56.2.1 (List.replicate 56 0x61) [0] (List.replicate 64 0xaa)
      (List.replicate 32 0x55) (by simp) (by simp) (by simp)).2,
   sha256_len_55_and_56.2.2 [0] (List.replicate 64 0xaa) (List.replicate 32 0x55)
      (by simp) (by simp)⟩

/-! ## Messages whose length is a multiple of 64 -/

theorem compressed_blocks_nil (bit_len n : Nat) : compressed_blocks bit_len n [] = [] := by
  cases n <;> simp [compressed_blocks]

theorem blocks_of_length (n : Nat) (P : List Nat) : (blocks_of n P).length = n := by
  induction n generalizing P with
  | zero => rfl
  | succ n ih => simp [blocks_of, ih]

/-- On a message of `64 * q` bytes the block loop compresses the `q` blocks
of the message and nothing else: the padding branch is never entered. -/
theorem compressed_blocks_multiple (bit_len q n : Nat) (M : List Nat)
    (hM : M.length = 64 * q) (hn : q ≤ n) : compressed_blocks bit_len n M = blocks_of q M := by
  induction q generalizing n M with
  | zero =>
    have : M = [] := List.eq_nil_of_length_eq_zero (by omega)
    rw [this, compressed_blocks_nil]
    rfl
  | succ q ih =>
    obtain ⟨n, rfl⟩ : ∃ n', n = n' + 1 := ⟨n - 1, by omega⟩
    rw [compressed_blocks, if_pos (by omega), iteration_blocks, if_pos (by omega),
      ih n (M.drop 64) (by rw [List.length_drop]; omega) (by omega)]
    rfl

theorem sha256_blocks_multiple (M : List Nat) (h : M.length % 64 = 0) :
    sha256_blocks M = blocks_of (M.length / 64) M :=
  compressed_blocks_multiple _ (M.length / 64) M.length M (by omega) (by omega)

theorem fips_pad_length (M : List Nat) :
    (fips_pad M).length = M.length + 1 + pad_zeros M.length + 8 := by
  simp [fips_pad, be64]
  omega

set_option maxRecDepth 100000 in
theorem fips_sha256_empty : fips_sha256 [] = digest_empty := by
  decide!

set_option maxRecDepth 100000 in
theorem fips_sha256_abc : fips_sha256 msg_abc = digest_abc := by
  decide!

set_option maxRecDepth 100000 in
theorem fips_sha256_a64 : fips_sha256 msg_a64 = digest_a64 := by
  decide!

set_option maxRecDepth 100000 in
theorem one_block_a64_eq : digest_bytes (sha256_transform init_state msg_a64) = one_block_a64 := by
  decide!

theorem digest_bytes_init : digest_bytes init_state = init_bytes := by
  decide

theorem sha256_state_nil : sha256_state [] = init_state := by
  simp [sha256_state, sha256_blocks, compressed_blocks]

/-- C1, at the inputs where it fails: when the length is a multiple of 64
(0 included) `sha256` compresses the blocks of the message and no padding
block, one block fewer than FIPS 180-4 prescribes; on the empty message it
returns the serialised initial constants, which is not the FIPS 180-4
digest of the empty message. -/
theorem sha256_skips_padding_at_multiples_of_64 :
    (∀ M rest block0 : List Nat, M.length % 64 = 0 → block0.length = 64 →
      (sha256_run (M ++ rest) M.length block0).map Ctx.calls =
        some (blocks_of (M.length / 64) M) ∧
      (blocks_of ((fips_pad M).length / 64) (fips_pad M)).length = M.length / 64 + 1) ∧
    (∀ rest block0 hash0 : List Nat, block0.length = 64 → hash0.length = 32 →
      sha256 rest 0 block0 hash0 = some init_bytes ∧
      sha256 rest 0 block0 hash0 ≠ some (fips_sha256 [])) := by
  refine ⟨?_, ?_⟩
  · intro M rest block0 hM hb
    obtain ⟨c, h1, _, h3⟩ := sha256_run_eq M rest block0 hb
    refine ⟨by rw [h1, Option.map_some', h3, sha256_blocks_multiple M hM], ?_⟩
    rw [blocks_of_length, fips_pad_length, pad_zeros]
    omega
  · intro rest block0 hash0 hb hh
    have h := sha256_eq [] rest block0 hash0 hb (by omega)
    rw [sha256_state_nil, digest_bytes_init, List.drop_eq_nil_of_le (by omega),
      List.append_nil] at h
    have h' : sha256 rest 0 block0 hash0 = some init_bytes := h
    refine ⟨h', ?_⟩
    rw [h', fips_sha256_empty]
    decide

theorem sha256_skips_padding_at_multiples_of_64_witness :
    (sha256_run ([] ++ [0]) 0 (List.replicate 64 0xaa)).map Ctx.calls = some [] ∧
    sha256 [0] 0 (List.replicate 64 0xaa) (List.replicate 32 0x55) ≠ some (fips_sha256 []) :=
  ⟨(sha256_skips_padding_at_multiples_of_64.1 [] [0] (List.replicate 64 0xaa) (by simp)
      (by simp)).1,
   (sha256_skips_padding_at_multiples_of_64.2 [0] (List.replicate 64 0xaa)
      (List.replicate 32 0x55) (by simp) (by simp)).2⟩

/-- C2, at the empty message: `sha256` with length 0 compresses no block at
all and returns 6a09e667bb67ae853c6ef372a54ff53a510e527f9b05688c1f83d9ab5be0cd19,
the serialised initial state, not
e3b0c44298fc1c149afbf4c8996fb92427ae41e4649b934ca495991b7852b855. -/
theorem sha256_empty_compresses_nothing (rest block0 hash0 : List Nat) (hh : hash0.length = 32) :
    (sha256_run rest 0 block0).map Ctx.calls = some [] ∧
    sha256 rest 0 block0 hash0 = some init_bytes ∧
    init_bytes ≠ digest_empty ∧
    digest_bytes (sha256_transform init_state ([0x80] ++ List.replicate 55 0 ++ be64 0)) =
      digest_empty := by
  have hrun : sha256_run rest 0 block0 = some
      { state := init_state, block := block0, block_len := 0, remaining := 0,
        message := rest, calls := [] } := by
    simp [sha256_run, sha256_loop]
  refine ⟨by rw [hrun]; rfl, ?_, by decide, ?_⟩
  · rw [sha256, hrun, Option.map_some']
    simp only []
    rw [apply_writes_digest _ _ wordState_init.1 (by omega), digest_bytes_init,
      List.drop_eq_nil_of_le (by omega), List.append_nil]
  · have h := fips_sha256_empty
    have hb : blocks_of ((fips_pad []).length / 64) (fips_pad []) =
        [[0x80] ++ List.replicate 55 0 ++ be64 0] := by decide
    rw [fips_sha256, hb] at h
    exact h

theorem sha256_empty_compresses_nothing_witness :
    sha256 [0] 0 (List.replicate 64 0xaa) (List.replicate 32 0x55) = some init_bytes :=
  (sha256_empty_compresses_nothing [0] (List.replicate 64 0xaa) (List.replicate 32 0x55)
    (by simp)).2.1

theorem fips_blocks_64 (M : List Nat) (h : M.length = 64) :
    blocks_of ((fips_pad M).length / 64) (fips_pad M) =
      [M, [0x80] ++ List.replicate 55 0 ++ be64 512] := by
  have hp : fips_pad M = M ++ ([0x80] ++ List.replicate 55 0 ++ be64 512) := by
    simp [fips_pad, h, pad_zeros]
  have hl2 : ([0x80] ++ List.replicate 55 0 ++ be64 512).length = 64 := by simp [be64]
  rw [hp, List.length_append, h, hl2]
  simp only [blocks_of, Nat.reduceAdd, Nat.reduceDiv]
  rw [List.take_left' h, List.drop_left' h, List.take_of_length_le (le_of_eq hl2)]

/-- C4, at the inputs where it fails: on a message of exactly 64 bytes
`sha256` compresses one block, the message itself, and returns the
serialisation of the state after that block; the second, all-padding block
(`0x80`, 55 zero bytes, the 8-byte big-endian value 512) that FIPS 180-4
prescribes is never compressed. For 64 letters "a" the code returns
df5bb81c..00635e66 while the FIPS 180-4 digest is ffe054fe..154668eb. -/
theorem sha256_64_bytes_one_block :
    (∀ M rest block0 hash0 : List Nat, M.length = 64 → block0.length = 64 →
      hash0.length = 32 →
      (sha256_run (M ++ rest) 64 block0).map Ctx.calls = some [M] ∧
      sha256 (M ++ rest) 64 block0 hash0 = some (digest_bytes (sha256_transform init_state M)) ∧
      blocks_of ((fips_pad M).length / 64) (fips_pad M) =
        [M, [0x80] ++ List.replicate 55 0 ++ be64 512]) ∧
    (∀ rest block0 hash0 : List Nat, block0.length = 64 → hash0.length = 32 →
      sha256 (msg_a64 ++ rest) 64 block0 hash0 = some one_block_a64 ∧
      fips_sha256 msg_a64 = digest_a64 ∧
      sha256 (msg_a64 ++ rest) 64 block0 hash0 ≠ some (fips_sha256 msg_a64)) := by
  have general : ∀ M rest block0 hash0 : List Nat, M.length = 64 → block0.length = 64 →
      hash0.length = 32 →
      (sha256_run (M ++ rest) 64 block0).map Ctx.calls = some [M] ∧
      sha256 (M ++ rest) 64 block0 hash0 =
        some (digest_bytes (sha256_transform init_state M)) := by
    intro M rest block0 hash0 hM hb hh
    obtain ⟨c, h1, _, h3⟩ := sha256_run_eq M rest block0 hb
    have h := sha256_eq M rest block0 hash0 hb (by omega)
    have hblocks : sha256_blocks M = [M] := by
      rw [sha256_blocks_multiple M (by omega), hM]
      simp only [blocks_of, Nat.reduceDiv]
      rw [List.take_of_length_le (le_of_eq hM)]
    rw [hM] at h1 h
    refine ⟨by rw [h1, Option.map_some', h3, hblocks], ?_⟩
    rw [h, List.drop_eq_nil_of_le (by omega), List.append_nil, sha256_state, hblocks]
    rfl
  refine ⟨fun M rest block0 hash0 hM hb hh =>
    ⟨(general M rest block0 hash0 hM hb hh).1, (general M rest block0 hash0 hM hb hh).2,
      fips_blocks_64 M hM⟩, ?_⟩
  intro rest block0 hash0 hb hh
  have h := (general msg_a64 rest block0 hash0 (by simp [msg_a64]) hb hh).2
  rw [one_block_a64_eq] at h
  refine ⟨h, fips_sha256_a64, ?_⟩
  rw [h, fips_sha256_a64]
  decide

theorem sha256_64_bytes_one_block_witness :
    (sha256_run (msg_a64 ++ [0]) 64 (List.replicate 64 0xaa)).map Ctx.calls = some [msg_a64] ∧
    sha256 (msg_a64 ++ [0]) 64 (List.replicate 64 0xaa) (List.replicate 32 0x55) ≠
      some (fips_sha256 msg_a64) :=
  ⟨(sha256_64_bytes_one_block.1 msg_a64 [0] (List.replicate 64 0xaa) (List.replicate 32 0x55)
      (by simp [msg_a64]) (by simp) (by simp)).1,
   (sha256_64_bytes_one_block.2 [0] (List.replicate 64 0xaa) (List.replicate 32 0x55)
      (by simp) (by simp)).2.2⟩

/-! ## Determinism -/

theorem iteration_blocks_length (bit_len : Nat) (M : List Nat) :
    ∀ b ∈ iteration_blocks bit_len M, b.length = 64 := by
  intro b hb
  unfold iteration_blocks at hb
  by_cases h64 : 64 ≤ M.length
  · rw [if_pos h64, List.mem_singleton] at hb
    rw [hb, List.length_take]; omega
  · rw [if_neg h64] at hb
    by_cases h56 : M.length < 56
    · rw [if_pos h56, List.mem_singleton] at hb
      rw [hb]
      simp only [List.length_append, List.length_singleton, List.length_replicate,
        len_bytes_length]
      omega
    · rw [if_neg h56] at hb
      simp only [List.mem_cons, List.mem_singleton, List.not_mem_nil, or_false] at hb
      rcases hb with hb | hb
      · rw [hb]
        simp only [List.length_append, List.length_singleton, List.length_replicate]
        omega
      · rw [hb]
        simp only [List.length_append, List.length_replicate, len_bytes_length]

theorem compressed_blocks_length (bit_len n : Nat) (M : List Nat) :
    ∀ b ∈ compressed_blocks bit_len n M, b.length = 64 := by
  induction n generalizing M with
  | zero => intro b hb; simp [compressed_blocks] at hb
  | succ n ih =>
    intro b hb
    rw [compressed_blocks] at hb
    by_cases h : 0 < M.length
    · rw [if_pos h, List.mem_append] at hb
      rcases hb with hb | hb
      · exact iteration_blocks_length bit_len M b hb
      · exact ih _ b hb
    · rw [if_neg h] at hb
      simp at hb

/-- C10: `sha256` is a deterministic function of the first `len` bytes of the
message alone. Two runs on the same `len` message bytes compress the same
64-byte blocks, end in the same state and return the same 32 digest bytes,
whatever bytes follow the message in memory (`rest1`, `rest2`), whatever the
scratch array `block` held on entry (`block1`, `block2`) and whatever the
output buffer held (`hash1`, `hash2`). -/
theorem sha256_deterministic (M rest1 rest2 block1 block2 hash1 hash2 : List Nat)
    (hb1 : block1.length = 64) (hb2 : block2.length = 64)
    (hh1 : 32 ≤ hash1.length) (hh2 : 32 ≤ hash2.length) :
    ∃ c1 c2 d, sha256_run (M ++ rest1) M.length block1 = some c1 ∧
      sha256_run (M ++ rest2) M.length block2 = some c2 ∧
      c1.calls = c2.calls ∧ (∀ b ∈ c1.calls, b.length = 64) ∧
      c1.state = c2.state ∧
      d.length = 32 ∧
      sha256 (M ++ rest1) M.length block1 hash1 = some (d ++ hash1.drop 32) ∧
      sha256 (M ++ rest2) M.length block2 hash2 = some (d ++ hash2.drop 32) ∧
      (hash1.length = 32 → hash2.length = 32 →
        sha256 (M ++ rest1) M.length block1 hash1 = sha256 (M ++ rest2) M.length block2 hash2) := by
  obtain ⟨c1, r1, s1, k1⟩ := sha256_run_eq M rest1 block1 hb1
  obtain ⟨c2, r2, s2, k2⟩ := sha256_run_eq M rest2 block2 hb2
  have e1 := sha256_eq M rest1 block1 hash1 hb1 hh1
  have e2 := sha256_eq M rest2 block2 hash2 hb2 hh2
  refine ⟨c1, c2, digest_bytes (sha256_state M), r1, r2, by rw [k1, k2], ?_, by rw [s1, s2],
    digest_bytes_length _ (wordState_sha256_state M).1, e1, e2, ?_⟩
  · rw [k1]
    exact compressed_blocks_length _ _ _
  · intro l1 l2
    rw [e1, e2, List.drop_eq_nil_of_le (by omega), List.drop_eq_nil_of_le (by omega)]

theorem sha256_deterministic_witness :
    ∃ c1 c2 d, sha256_run (msg_abc ++ [0]) 3 (List.replicate 64 0) = some c1 ∧
      sha256_run (msg_abc ++ [0xff, 0xff]) 3 (List.replicate 64 0xaa) = some c2 ∧
      c1.calls = c2.calls ∧ (∀ b ∈ c1.calls, b.length = 64) ∧
      c1.state = c2.state ∧
      d.length = 32 ∧
      sha256 (msg_abc ++ [0]) 3 (List.replicate 64 0) (List.replicate 32 0) =
        some (d ++ (List.replicate 32 0).drop 32) ∧
      sha256 (msg_abc ++ [0xff, 0xff]) 3 (List.replicate 64 0xaa) (List.replicate 32 0x55) =
        some (d ++ (List.replicate 32 0x55).drop 32) ∧
      ((List.replicate 32 0).length = 32 → (List.replicate 32 0x55).length = 32 →
        sha256 (msg_abc ++ [0]) 3 (List.replicate 64 0) (List.replicate 32 0) =
          sha256 (msg_abc ++ [0xff, 0xff]) 3 (List.replicate 64 0xaa) (List.replicate 32 0x55)) :=
  sha256_deterministic msg_abc [0] [0xff, 0xff] (List.replicate 64 0) (List.replicate 64 0xaa)
    (List.replicate 32 0) (List.replicate 32 0x55) (by simp) (by simp) (by simp) (by simp)

/-! ## Instances at concrete inputs -/

theorem sha256_writes_32_bytes_witness :
    ∃ out, sha256 msg_abc 3 (List.replicate 64 0) (List.replicate 40 0x55) = some out ∧
      out.length = 40 ∧ (∀ j, j < 32 → out.getD j 0 < 256) ∧
      out.drop 32 = List.replicate 8 0x55 := by
  obtain ⟨c, out, _, h, _, _, _, hl, hj, hd⟩ :=
    sha256_writes_32_bytes msg_abc 3 (List.replicate 64 0) (List.replicate 40 0x55) (by simp)
  exact ⟨out, h, by simpa using hl, fun j hj' => (hj j hj').2, by simpa using hd⟩

theorem sha256_output_big_endian_witness :
    ∃ c out, sha256_run msg_abc 3 (List.replicate 64 0) = some c ∧
      sha256 msg_abc 3 (List.replicate 64 0) (List.replicate 32 0) = some out ∧
      (List.range 8).map (fun i => out.getD (4 * i) 0 * 2 ^ 24 + out.getD (4 * i + 1) 0 * 2 ^ 16 +
        out.getD (4 * i + 2) 0 * 2 ^ 8 + out.getD (4 * i + 3) 0) = c.state := by
  obtain ⟨c, out, h1, h2, _, _, h3⟩ :=
    sha256_output_big_endian msg_abc 3 (List.replicate 64 0) (List.replicate 32 0) (by simp)
  exact ⟨c, out, h1, h2, h3⟩

theorem message_schedule_spec_witness :
    (message_schedule (List.replicate 64 0xffffffff) block_abc).getD 0 0 =
        block_abc.getD (4 * 0) 0 * 2 ^ 24 + block_abc.getD (4 * 0 + 1) 0 * 2 ^ 16 +
          block_abc.getD (4 * 0 + 2) 0 * 2 ^ 8 + block_abc.getD (4 * 0 + 3) 0 ∧
    (message_schedule (List.replicate 64 0xffffffff) block_abc).getD 16 0 =
        (sigma1 ((message_schedule (List.replicate 64 0xffffffff) block_abc).getD (16 - 2) 0) +
          (message_schedule (List.replicate 64 0xffffffff) block_abc).getD (16 - 7) 0 +
          sigma0 ((message_schedule (List.replicate 64 0xffffffff) block_abc).getD (16 - 15) 0) +
          (message_schedule (List.replicate 64 0xffffffff) block_abc).getD (16 - 16) 0) % 2 ^ 32 :=
  ⟨(message_schedule_spec (List.replicate 64 0xffffffff) block_abc (by simp) (by decide)
      (by decide)).2.2.1 0 (by norm_num),
   (message_schedule_spec (List.replicate 64 0xffffffff) block_abc (by simp) (by decide)
      (by decide)).2.2.2.1 16 (by norm_num) (by norm_num)⟩

/-- One compression of the padded "abc" block from the initial state gives
the words of the published digest. -/
theorem transform_block_abc :
    sha256_transform init_state block_abc =
      [0xba7816bf, 0x8f01cfea, 0x414140de, 0x5dae2223, 0xb00361a3, 0x96177a9c, 0xb410ff61,
        0xf20015ad] := by
  decide!

/-! ## The length field -/

theorem len_bytes_eq_be64 (bit_len : Nat) : len_bytes bit_len = be64 bit_len := by
  have h : ∀ x : Nat, x &&& 255 = x % 256 := fun x => Nat.and_pow_two_sub_one_eq_mod x 8
  have hr : List.range 8 = [0, 1, 2, 3, 4, 5, 6, 7] := by decide
  simp only [len_bytes, be64, hr, List.range', List.map, Nat.shiftRight_eq_div_pow, h]
  norm_num

theorem be64_length (v : Nat) : (be64 v).length = 8 := by
  simp [be64]

theorem be64_mod (v : Nat) : be64 (v % 2 ^ 64) = be64 v := by
  have hr : List.range 8 = [0, 1, 2, 3, 4, 5, 6, 7] := by decide
  simp only [be64, hr, List.map]
  norm_num
  omega

theorem be_value_be64 (v : Nat) : be_value (be64 v) = v % 2 ^ 64 := by
  have hr : List.range 8 = [0, 1, 2, 3, 4, 5, 6, 7] := by decide
  simp only [be_value, be64, hr, List.map, List.foldl]
  norm_num
  omega

theorem be64_lt (v : Nat) : ∀ b ∈ be64 v, b < 256 := by
  intro b hb
  simp only [be64, List.mem_map] at hb
  obtain ⟨i, _, rfl⟩ := hb
  exact Nat.mod_lt _ (by norm_num)

/-- C17: for `len < 2^61` the product `bit_len = len * 8` does not wrap, and
the eight bytes `(bit_len >> (56 - 8i)) & 0xff`, `i = 0..7`, that the length
loop stores at `block[56..63]` are the 64-bit big-endian encoding of
`8 * len`: read back most significant byte first they give `8 * len`. For
any `len` the bytes encode `8 * len mod 2^64`. -/
theorem bit_len_big_endian (len : Nat) :
    (len < 2 ^ 61 → (len * 8) % 2 ^ 64 = 8 * len ∧
      len_bytes ((len * 8) % 2 ^ 64) = be64 (8 * len) ∧
      be_value (len_bytes ((len * 8) % 2 ^ 64)) = 8 * len) ∧
    be_value (len_bytes ((len * 8) % 2 ^ 64)) = (8 * len) % 2 ^ 64 ∧
    (∀ bit_len : Nat, len_bytes bit_len =
      [(bit_len >>> 56) &&& 0xff, (bit_len >>> 48) &&& 0xff, (bit_len >>> 40) &&& 0xff,
       (bit_len >>> 32) &&& 0xff, (bit_len >>> 24) &&& 0xff, (bit_len >>> 16) &&& 0xff,
       (bit_len >>> 8) &&& 0xff, (bit_len >>> 0) &&& 0xff]) ∧
    (∀ b ∈ len_bytes ((len * 8) % 2 ^ 64), b < 256) ∧
    (∀ block : List Nat, block.length = 64 →
      store_length ((len * 8) % 2 ^ 64) 8 0 block =
        block.take 56 ++ len_bytes ((len * 8) % 2 ^ 64)) := by
  have hv : be_value (len_bytes ((len * 8) % 2 ^ 64)) = (8 * len) % 2 ^ 64 := by
    rw [len_bytes_eq_be64, be_value_be64, Nat.mod_mod, Nat.mul_comm]
  refine ⟨?_, hv, fun _ => by simp [len_bytes, List.range'], ?_, ?_⟩
  · intro h
    have hw : (len * 8) % 2 ^ 64 = 8 * len := by omega
    refine ⟨hw, by rw [len_bytes_eq_be64, hw], ?_⟩
    rw [hv]; omega
  · rw [len_bytes_eq_be64]
    exact be64_lt _
  · intro block hb
    have h := store_length_eq ((len * 8) % 2 ^ 64) 8 0 (block.take 56) (block.drop 56)
      (by rw [List.length_take]; omega) (by rw [List.length_drop]; omega)
    rw [List.take_append_drop] at h
    rw [h, List.drop_drop, List.drop_eq_nil_of_le (by omega), List.append_nil]
    rfl

theorem bit_len_big_endian_witness :
    (3 * 8) % 2 ^ 64 = 8 * 3 ∧ len_bytes ((3 * 8) % 2 ^ 64) = be64 (8 * 3) ∧
      be_value (len_bytes ((3 * 8) % 2 ^ 64)) = 8 * 3 :=
  (bit_len_big_endian 3).1 (by norm_num)

/-! ## Messages whose length is not a multiple of 64 -/

theorem blocks_of_append (q t : Nat) (M tail : List Nat) (hM : 64 * q ≤ M.length) :
    blocks_of (q + t) (M ++ tail) = blocks_of q M ++ blocks_of t (M.drop (64 * q) ++ tail) := by
  induction q generalizing M with
  | zero => simp [blocks_of]
  | succ q ih =>
    rw [show q + 1 + t = (q + t) + 1 by omega, blocks_of, blocks_of,
      List.take_append_of_le_length (by omega), List.drop_append_of_le_length (by omega),
      ih (M.drop 64) (by rw [List.length_drop]; omega), List.drop_drop,
      show 64 + 64 * q = 64 * (q + 1) by omega]
    rfl

theorem blocks_of_exact (q : Nat) (M tail : List Nat) (hM : M.length = 64 * q) :
    blocks_of q (M ++ tail) = blocks_of q M := by
  have h := blocks_of_append q 0 M tail (by omega)
  simpa [blocks_of] using h

/-- On a message of `64 * q + r` bytes, `0 < r < 64`, the block loop
compresses the `q` full blocks and then the blocks of the padding branch. -/
theorem compressed_blocks_remainder (bit_len q n : Nat) (M : List Nat)
    (h0 : 64 * q < M.length) (h1 : M.length < 64 * q + 64) (hn : q + 1 ≤ n) :
    compressed_blocks bit_len n M =
      blocks_of q M ++ iteration_blocks bit_len (M.drop (64 * q)) := by
  induction q generalizing n M with
  | zero =>
    obtain ⟨n, rfl⟩ : ∃ n', n = n' + 1 := ⟨n - 1, by omega⟩
    have hd : M.drop 64 = [] := List.drop_eq_nil_of_le (by omega)
    rw [compressed_blocks, if_pos (by omega), hd, compressed_blocks_nil]
    simp [blocks_of]
  | succ q ih =>
    obtain ⟨n, rfl⟩ : ∃ n', n = n' + 1 := ⟨n - 1, by omega⟩
    rw [compressed_blocks, if_pos (by omega), iteration_blocks, if_pos (by omega),
      ih n (M.drop 64) (by rw [List.length_drop]; omega) (by rw [List.length_drop]; omega)
        (by omega),
      List.drop_drop, show 64 + 64 * q = 64 * (q + 1) by omega]
    rfl

theorem sha256_blocks_remainder (M : List Nat) (h : M.length % 64 ≠ 0) :
    sha256_blocks M = blocks_of (M.length / 64) M ++
      iteration_blocks ((M.length * 8) % 2 ^ 64) (M.drop (64 * (M.length / 64))) :=
  compressed_blocks_remainder _ (M.length / 64) M.length M (by omega) (by omega) (by omega)

/-- The blocks of the FIPS 180-4 padded message when the remainder fits one
block with its padding. -/
theorem fips_blocks_short (M : List Nat) (h0 : 0 < M.length % 64) (h1 : M.length % 64 < 56) :
    blocks_of ((fips_pad M).length / 64) (fips_pad M) =
      blocks_of (M.length / 64) M ++
        [M.drop (64 * (M.length / 64)) ++ [0x80] ++ List.replicate (55 - M.length % 64) 0 ++
          be64 (8 * M.length)] := by
  have hz : pad_zeros M.length = 55 - M.length % 64 := by unfold pad_zeros; omega
  have hq : (fips_pad M).length / 64 = M.length / 64 + 1 := by
    rw [fips_pad_length, hz]; omega
  have hp : fips_pad M = M ++ ([0x80] ++ List.replicate (55 - M.length % 64) 0 ++
      be64 (8 * M.length)) := by
    simp [fips_pad, hz]
  rw [hq, hp, blocks_of_append _ 1 M _ (by omega)]
  have hl : (M.drop (64 * (M.length / 64)) ++ ([0x80] ++ List.replicate (55 - M.length % 64) 0 ++
      be64 (8 * M.length))).length = 64 := by
    simp only [List.length_append, List.length_drop, List.length_singleton,
      List.length_replicate, be64_length]
    omega
  simp only [blocks_of]
  rw [List.take_of_length_le (le_of_eq hl)]
  simp

/-- The blocks of the FIPS 180-4 padded message when the remainder and the
byte `0x80` leave no room for the length field. -/
theorem fips_blocks_long (M : List Nat) (h0 : 56 ≤ M.length % 64) :
    blocks_of ((fips_pad M).length / 64) (fips_pad M) =
      blocks_of (M.length / 64) M ++
        [M.drop (64 * (M.length / 64)) ++ [0x80] ++ List.replicate (63 - M.length % 64) 0,
         List.replicate 56 0 ++ be64 (8 * M.length)] := by
  have hr : M.length % 64 < 64 := Nat.mod_lt _ (by norm_num)
  have hz : pad_zeros M.length = (63 - M.length % 64) + 56 := by unfold pad_zeros; omega
  have hq : (fips_pad M).length / 64 = M.length / 64 + 2 := by
    rw [fips_pad_length, hz]; omega
  have hp : fips_pad M = M ++ (([0x80] ++ List.replicate (63 - M.length % 64) 0) ++
      (List.replicate 56 0 ++ be64 (8 * M.length))) := by
    simp [fips_pad, hz, List.replicate_add]
  rw [hq, hp, blocks_of_append _ 2 M _ (by omega)]
  have hl1 : (M.drop (64 * (M.length / 64)) ++ ([0x80] ++
      List.replicate (63 - M.length % 64) 0)).length = 64 := by
    simp only [List.length_append, List.length_drop, List.length_singleton,
      List.length_replicate]
    omega
  have hl2 : (List.replicate 56 0 ++ be64 (8 * M.length)).length = 64 := by
    simp only [List.length_append, List.length_replicate, be64_length]
  simp only [blocks_of]
  rw [← List.append_assoc, List.take_left' hl1, List.drop_left' hl1,
    List.take_of_length_le (le_of_eq hl2)]
  simp

theorem len_bytes_bit_len (n : Nat) : len_bytes ((n * 8) % 2 ^ 64) = be64 (8 * n) := by
  rw [len_bytes_eq_be64, be64_mod, Nat.mul_comm]

theorem sha256_blocks_short (M : List Nat) (h0 : 0 < M.length % 64) (h1 : M.length % 64 < 56) :
    sha256_blocks M = blocks_of (M.length / 64) M ++
      [M.drop (64 * (M.length / 64)) ++ [0x80] ++ List.replicate (55 - M.length % 64) 0 ++
        be64 (8 * M.length)] := by
  have hl : (M.drop (64 * (M.length / 64))).length = M.length % 64 := by
    rw [List.length_drop]; omega
  rw [sha256_blocks_remainder M (by omega), iteration_blocks, hl, if_neg (by omega), if_pos h1,
    len_bytes_bit_len]

theorem sha256_blocks_long (M : List Nat) (h0 : 56 ≤ M.length % 64) :
    sha256_blocks M = blocks_of (M.length / 64) M ++
      [M.drop (64 * (M.length / 64)) ++ [0x80] ++ List.replicate (63 - M.length % 64) 0,
       List.replicate 56 0 ++ be64 (8 * M.length)] := by
  have hr : M.length % 64 < 64 := Nat.mod_lt _ (by norm_num)
  have hl : (M.drop (64 * (M.length / 64))).length = M.length % 64 := by
    rw [List.length_drop]; omega
  rw [sha256_blocks_remainder M (by omega), iteration_blocks, hl, if_neg (by omega),
    if_neg (by omega), len_bytes_bit_len]

theorem sha256_blocks_eq_fips (M : List Nat) (h : M.length % 64 ≠ 0) :
    sha256_blocks M = blocks_of ((fips_pad M).length / 64) (fips_pad M) := by
  by_cases h1 : M.length % 64 < 56
  · rw [sha256_blocks_short M (by omega) h1, fips_blocks_short M (by omega) h1]
  · rw [sha256_blocks_long M (by omega), fips_blocks_long M (by omega)]

/-- C14: for every message whose length `n` is not a multiple of 64 and is
below `2^61`, `sha256` returns the FIPS 180-4 SHA-256 of the message: it
compresses exactly the blocks of `M ++ [0x80] ++ zeros ++ big-endian 8n`, the
length field does spell `8n`, and when `n mod 64` is in 1..55 the last block
is the remainder, `0x80`, zeros up to byte 56 and the length field,
compressed once after the full blocks. -/
theorem sha256_eq_fips_off_boundary (M rest block0 hash0 : List Nat)
    (hn : M.length % 64 ≠ 0) (h61 : M.length < 2 ^ 61) (hb : block0.length = 64)
    (hh : hash0.length = 32) :
    sha256 (M ++ rest) M.length block0 hash0 = some (fips_sha256 M) ∧
    (sha256_run (M ++ rest) M.length block0).map Ctx.calls =
      some (blocks_of ((fips_pad M).length / 64) (fips_pad M)) ∧
    be_value (be64 (8 * M.length)) = 8 * M.length ∧
    (M.length % 64 < 56 →
      (sha256_run (M ++ rest) M.length block0).map Ctx.calls =
        some (blocks_of (M.length / 64) M ++
          [M.drop (64 * (M.length / 64)) ++ [0x80] ++
            List.replicate (55 - M.length % 64) 0 ++ be64 (8 * M.length)])) := by
  obtain ⟨c, h1, _, h3⟩ := sha256_run_eq M rest block0 hb
  have h := sha256_eq M rest block0 hash0 hb (by omega)
  refine ⟨?_, by rw [h1, Option.map_some', h3, sha256_blocks_eq_fips M hn], ?_, ?_⟩
  · rw [h, List.drop_eq_nil_of_le (by omega), List.append_nil, sha256_state,
      sha256_blocks_eq_fips M hn, fips_sha256]
  · rw [be_value_be64]; omega
  · intro hlt
    rw [h1, Option.map_some', h3, sha256_blocks_short M (by omega) hlt]

theorem sha256_eq_fips_off_boundary_witness :
    sha256 (msg_abc ++ [0]) 3 (List.replicate 64 0xaa) (List.replicate 32 0x55) =
      some (fips_sha256 msg_abc) :=
  (sha256_eq_fips_off_boundary msg_abc [0] (List.replicate 64 0xaa) (List.replicate 32 0x55)
    (by decide) (by decide) (by simp) (by simp)).1

/-- C16: when the final remainder `r = len mod 64` is in 56..63, `sha256`
finishes with exactly two compress calls after the `len / 64` full blocks:
an intermediate block made of the `r` remaining message bytes, `0x80` and
`63 - r` zero bytes (no length field), then a block of 56 zero bytes followed
by the 8-byte big-endian encoding of the bit length. -/
theorem sha256_two_block_padding (M rest block0 : List Nat) (hr : 56 ≤ M.length % 64)
    (hb : block0.length = 64) :
    (sha256_run (M ++ rest) M.length block0).map Ctx.calls =
      some (blocks_of (M.length / 64) M ++
        [M.drop (64 * (M.length / 64)) ++ [0x80] ++ List.replicate (63 - M.length % 64) 0,
         List.replicate 56 0 ++ be64 (8 * M.length)]) ∧
    (blocks_of (M.length / 64) M).length = M.length / 64 ∧
    (M.drop (64 * (M.length / 64))).length = M.length % 64 ∧
    (M.drop (64 * (M.length / 64)) ++ [0x80] ++
      List.replicate (63 - M.length % 64) 0).length = 64 ∧
    be64 (8 * M.length) = len_bytes ((M.length * 8) % 2 ^ 64) ∧
    (M.length < 2 ^ 61 → be_value (be64 (8 * M.length)) = 8 * M.length) := by
  obtain ⟨c, h1, _, h3⟩ := sha256_run_eq M rest block0 hb
  have hlt : M.length % 64 < 64 := Nat.mod_lt _ (by norm_num)
  have hl : (M.drop (64 * (M.length / 64))).length = M.length % 64 := by
    rw [List.length_drop]; omega
  refine ⟨by rw [h1, Option.map_some', h3, sha256_blocks_long M hr], blocks_of_length _ _, hl,
    ?_, (len_bytes_bit_len _).symm, ?_⟩
  · simp only [List.length_append, hl, List.length_singleton, List.length_replicate]
    omega
  · intro h61
    rw [be_value_be64]; omega

theorem sha256_two_block_padding_witness :
    (sha256_run (msg_56 ++ [0]) msg_56.length (List.replicate 64 0xaa)).map Ctx.calls =
      some (blocks_of (msg_56.length / 64) msg_56 ++
        [msg_56.drop (64 * (msg_56.length / 64)) ++ [0x80] ++
          List.replicate (63 - msg_56.length % 64) 0,
         List.replicate 56 0 ++ be64 (8 * msg_56.length)]) :=
  (sha256_two_block_padding msg_56 [0] (List.replicate 64 0xaa) (by decide) (by simp)).1

/-! ## Messages made of whole blocks -/

theorem sha256_run_eq_loop (message : List Nat) (len : Nat) (block0 : List Nat) :
    sha256_run message len block0 =
      sha256_loop ((len * 8) % 2 ^ 64) len (init_ctx message len block0) := rfl

theorem loop_body_full (bit_len : Nat) (c : Ctx) (h64 : 64 ≤ c.remaining)
    (hb : c.block.length = 64) :
    loop_body bit_len c =
      { state := sha256_transform c.state (c.message.take 64),
        block := c.message.take 64,
        block_len := 64,
        remaining := c.remaining - 64,
        message := c.message.drop 64,
        calls := c.calls ++ [c.message.take 64] } := by
  have hd : c.block.drop 64 = [] := List.drop_eq_nil_of_le (by omega)
  simp only [loop_body, if_neg (show ¬ c.remaining < 64 by omega),
    if_neg (show ¬ (64 : Nat) < 64 by omega), call_transform, memcpy, hd, List.append_nil]

theorem sha256_loop_done (bit_len fuel : Nat) (c : Ctx) (h : c.remaining = 0) :
    sha256_loop bit_len fuel c = some c := by
  cases fuel <;> simp [sha256_loop, h]

/-- The block loop on `64 * q` remaining bytes: `q` iterations, each of which
copies and compresses one block of the message; the padding branch is never
entered, so `block` ends up holding the last message block. -/
theorem sha256_loop_whole_blocks (bit_len q fuel : Nat) (c : Ctx) (hr : c.remaining = 64 * q)
    (hf : q ≤ fuel) (hb : c.block.length = 64) (hm : c.remaining ≤ c.message.length) :
    sha256_loop bit_len fuel c = some
      { state := (blocks_of q c.message).foldl sha256_transform c.state,
        block := (blocks_of q c.message).getLast?.getD c.block,
        block_len := if q = 0 then c.block_len else 64,
        remaining := 0,
        message := c.message.drop (64 * q),
        calls := c.calls ++ blocks_of q c.message } := by
  induction q generalizing fuel c with
  | zero =>
    rw [sha256_loop_done _ _ _ (by omega)]
    cases c
    simp only [Nat.mul_zero] at hr
    simp [blocks_of, hr]
  | succ q ih =>
    obtain ⟨fuel, rfl⟩ : ∃ f, fuel = f + 1 := ⟨fuel - 1, by omega⟩
    rw [sha256_loop, if_pos (by omega), loop_body_full bit_len c (by omega) hb,
      ih fuel _ (by simp only; omega) (by omega)
        (by simp only [List.length_take]; omega) (by simp only [List.length_drop]; omega)]
    simp only [blocks_of, List.foldl_cons, List.getLast?_cons, Option.getD_some,
      List.drop_drop, List.append_assoc, List.singleton_append, Option.some.injEq,
      Ctx.mk.injEq, true_and, and_true]
    refine ⟨?_, ?_⟩
    · simp
    · rw [show 64 + 64 * q = 64 * (q + 1) by omega]

theorem blocks_of_flatten (q : Nat) (M : List Nat) (hM : M.length = 64 * q) :
    (blocks_of q M).flatten = M := by
  induction q generalizing M with
  | zero =>
    have : M = [] := List.eq_nil_of_length_eq_zero (by omega)
    rw [this]; rfl
  | succ q ih =>
    rw [blocks_of, List.flatten_cons, ih (M.drop 64) (by rw [List.length_drop]; omega),
      List.take_append_drop]

/-- C15: on a message whose length `n` is a multiple of 64 (the empty message
included) `sha256` calls `sha256_transform` exactly `n / 64` times, on the
message's own consecutive 64-byte blocks; it builds no padding block, the
array `block` ending up with the last message block (or untouched when
`n = 0`); the digest is the serialisation of the state after those blocks,
for the empty message the serialisation of the eight initial constants. -/
theorem sha256_on_whole_blocks (M rest block0 hash0 : List Nat) (hM : M.length % 64 = 0)
    (hb : block0.length = 64) (hh : hash0.length = 32) :
    ∃ c, sha256_run (M ++ rest) M.length block0 = some c ∧
      c.calls = blocks_of (M.length / 64) M ∧
      c.calls.length = M.length / 64 ∧
      c.calls.flatten = M ∧
      c.block = (blocks_of (M.length / 64) M).getLast?.getD block0 ∧
      c.state = (blocks_of (M.length / 64) M).foldl sha256_transform init_state ∧
      sha256 (M ++ rest) M.length block0 hash0 = some (digest_bytes c.state) ∧
      (M = [] → c.calls = [] ∧ c.block = block0 ∧ c.state = init_state ∧
        sha256 (M ++ rest) M.length block0 hash0 = some init_bytes) := by
  have hq : M.length = 64 * (M.length / 64) := by omega
  have hloop := sha256_loop_whole_blocks ((M.length * 8) % 2 ^ 64) (M.length / 64) M.length
    (init_ctx (M ++ rest) M.length block0) hq (by omega) hb
    (by simp [init_ctx])
  have hbl : blocks_of (M.length / 64) (M ++ rest) = blocks_of (M.length / 64) M :=
    blocks_of_exact _ M rest hq
  rw [← sha256_run_eq_loop] at hloop
  simp only [init_ctx, hbl, List.nil_append] at hloop
  have hs := sha256_eq M rest block0 hash0 hb (by omega)
  rw [List.drop_eq_nil_of_le (by omega), List.append_nil, sha256_state,
    sha256_blocks_multiple M hM] at hs
  refine ⟨_, hloop, rfl, blocks_of_length _ _, blocks_of_flatten _ M hq, rfl, rfl, hs, ?_⟩
  intro hnil
  subst hnil
  refine ⟨rfl, rfl, rfl, ?_⟩
  rw [hs]
  simp only [List.length_nil, Nat.zero_div, blocks_of, List.foldl_nil, digest_bytes_init]

theorem sha256_on_whole_blocks_witness :
    ∃ c, sha256_run (msg_a64 ++ [0]) msg_a64.length (List.replicate 64 0xaa) = some c ∧
      c.calls = blocks_of (msg_a64.length / 64) msg_a64 ∧
      sha256 (msg_a64 ++ [0]) msg_a64.length (List.replicate 64 0xaa)
        (List.replicate 32 0x55) = some (digest_bytes c.state) := by
  obtain ⟨c, h1, h2, _, _, _, _, h3, _⟩ := sha256_on_whole_blocks msg_a64 [0]
    (List.replicate 64 0xaa) (List.replicate 32 0x55) (by decide) (by simp) (by simp)
  exact ⟨c, h1, h2, h3⟩
/-! ## Termination and iteration counts -/

theorem sha256_loop_iterate (bit_len fuel : Nat) (c : Ctx) :
    sha256_loop bit_len fuel c =
      if (c.remaining + 63) / 64 ≤ fuel then
        some ((loop_body bit_len)^[(c.remaining + 63) / 64] c)
      else none := by
  induction fuel generalizing c with
  | zero =>
    rw [sha256_loop]
    by_cases h : c.remaining > 0
    · rw [if_pos h, if_neg (by omega)]
    · rw [if_neg h, if_pos (by omega), show (c.remaining + 63) / 64 = 0 by omega]
      rfl
  | succ fuel ih =>
    rw [sha256_loop]
    by_cases h : c.remaining > 0
    · rw [if_pos h, ih]
      have hrem := (loop_body_fields bit_len c).2
      have hceil : (c.remaining + 63) / 64 = ((loop_body bit_len c).remaining + 63) / 64 + 1 := by
        rw [hrem]; split <;> omega
      rw [hceil, Function.iterate_succ_apply]
      by_cases hle : ((loop_body bit_len c).remaining + 63) / 64 ≤ fuel
      · rw [if_pos hle, if_pos (by omega)]
      · rw [if_neg hle, if_neg (by omega)]
    · rw [if_neg h, if_pos (by omega), show (c.remaining + 63) / 64 = 0 by omega]
      rfl

theorem iterate_remaining (bit_len j : Nat) (c : Ctx) :
    ((loop_body bit_len)^[j] c).remaining = c.remaining - 64 * j := by
  induction j with
  | zero => rfl
  | succ j ih =>
    rw [Function.iterate_succ_apply', (loop_body_fields bit_len _).2, ih]
    split <;> omega

theorem put_byte_iterate_block_len (v n : Nat) (c : Ctx) :
    ((put_byte v)^[n] c).block_len = c.block_len + n := by
  induction n with
  | zero => rfl
  | succ n ih =>
    rw [Function.iterate_succ_apply']
    simp only [put_byte, ih]
    omega

theorem zero_fill_iterate (bound fuel : Nat) (c : Ctx) (hf : bound - c.block_len ≤ fuel) :
    zero_fill bound fuel c = (put_byte 0)^[bound - c.block_len] c := by
  induction fuel generalizing c with
  | zero =>
    rw [zero_fill, show bound - c.block_len = 0 by omega]
    rfl
  | succ fuel ih =>
    rw [zero_fill]
    by_cases h : c.block_len < bound
    · rw [if_pos h, ih (put_byte 0 c) (by simp only [put_byte]; omega),
        show bound - c.block_len = (bound - (put_byte 0 c).block_len) + 1 by
          simp only [put_byte]; omega,
        Function.iterate_succ_apply]
    · rw [if_neg h, show bound - c.block_len = 0 by omega]
      rfl

/-- C18: the block loop of `sha256` terminates for every length. Each
iteration is entered with `remaining > 0` and removes
`min(remaining, 64) >= 1` bytes, so `remaining` strictly decreases; the loop
runs exactly `ceil(len / 64)` iterations (with less fuel it has not finished,
with that much it has, and `remaining` is then 0). Each zero-fill loop makes
`bound - block_len` steps, at most 64, and stops with `block_len` at its bound
(64 and 56). -/
theorem block_loop_terminates (message : List Nat) (len : Nat) (block0 : List Nat) :
    sha256_run message len block0 =
      some ((loop_body ((len * 8) % 2 ^ 64))^[(len + 63) / 64] (init_ctx message len block0)) ∧
    (∀ fuel, sha256_loop ((len * 8) % 2 ^ 64) fuel (init_ctx message len block0) = none ↔
      fuel < (len + 63) / 64) ∧
    (∀ j, ((loop_body ((len * 8) % 2 ^ 64))^[j] (init_ctx message len block0)).remaining =
      len - 64 * j) ∧
    (∀ j, j < (len + 63) / 64 →
      0 < ((loop_body ((len * 8) % 2 ^ 64))^[j] (init_ctx message len block0)).remaining) ∧
    ((loop_body ((len * 8) % 2 ^ 64))^[(len + 63) / 64]
      (init_ctx message len block0)).remaining = 0 ∧
    (∀ bit_len c, 0 < c.remaining →
      1 ≤ min c.remaining 64 ∧
      (loop_body bit_len c).remaining = c.remaining - min c.remaining 64 ∧
      (loop_body bit_len c).remaining < c.remaining) ∧
    (∀ c : Ctx, zero_fill 64 64 c = (put_byte 0)^[64 - c.block_len] c ∧
      64 - c.block_len ≤ 64 ∧ (c.block_len ≤ 64 → (zero_fill 64 64 c).block_len = 64)) ∧
    (∀ c : Ctx, zero_fill 56 56 c = (put_byte 0)^[56 - c.block_len] c ∧
      56 - c.block_len ≤ 64 ∧ (c.block_len ≤ 56 → (zero_fill 56 56 c).block_len = 56)) := by
  have hrem : ∀ j, ((loop_body ((len * 8) % 2 ^ 64))^[j]
      (init_ctx message len block0)).remaining = len - 64 * j := by
    intro j
    rw [iterate_remaining]
    rfl
  refine ⟨?_, ?_, hrem, ?_, ?_, ?_, ?_, ?_⟩
  · rw [sha256_run_eq_loop, sha256_loop_iterate]
    exact if_pos (show (len + 63) / 64 ≤ len by omega)
  · intro fuel
    rw [sha256_loop_iterate]
    show (if (len + 63) / 64 ≤ fuel then _ else none) = none ↔ _
    by_cases h : (len + 63) / 64 ≤ fuel
    · rw [if_pos h]
      constructor
      · intro h'; cases h'
      · intro h'; omega
    · rw [if_neg h]
      constructor
      · intro _; omega
      · intro _; rfl
  · intro j hj
    rw [hrem]; omega
  · rw [hrem]; omega
  · intro bit_len c hpos
    have h := (loop_body_fields bit_len c).2
    refine ⟨by omega, ?_, ?_⟩
    · rw [h]; split <;> omega
    · rw [h]; split <;> omega
  · intro c
    refine ⟨zero_fill_iterate 64 64 c (by omega), by omega, ?_⟩
    intro h
    rw [zero_fill_iterate 64 64 c (by omega), put_byte_iterate_block_len]
    omega
  · intro c
    refine ⟨zero_fill_iterate 56 56 c (by omega), by omega, ?_⟩
    intro h
    rw [zero_fill_iterate 56 56 c (by omega), put_byte_iterate_block_len]
    omega

theorem block_loop_terminates_witness :
    sha256_run msg_abc 3 (List.replicate 64 0) =
      some ((loop_body ((3 * 8) % 2 ^ 64))^[(3 + 63) / 64]
        (init_ctx msg_abc 3 (List.replicate 64 0))) ∧
    ((loop_body ((3 * 8) % 2 ^ 64))^[(3 + 63) / 64]
      (init_ctx msg_abc 3 (List.replicate 64 0))).remaining = 0 :=
  ⟨(block_loop_terminates msg_abc 3 (List.replicate 64 0)).1,
   (block_loop_terminates msg_abc 3 (List.replicate 64 0)).2.2.2.2.1⟩

/-! ## `ROTR` is a rotation -/

theorem testBit_high (x j : Nat) (hx : x < 2 ^ 32) (hj : 32 ≤ j) : x.testBit j = false :=
  Nat.testBit_lt_two_pow (lt_of_lt_of_le hx (Nat.pow_le_pow_right (by norm_num) hj))

theorem ROTR_lt (x n : Nat) (hx : x < 2 ^ 32) : ROTR x n < 2 ^ 32 := by
  unfold ROTR
  apply Nat.or_lt_two_pow
  · rw [Nat.shiftRight_eq_div_pow]
    exact lt_of_le_of_lt (Nat.div_le_self _ _) hx
  · exact Nat.mod_lt _ (by norm_num)

theorem testBit_ROTR (x n j : Nat) (hx : x < 2 ^ 32) (hn0 : 0 < n) (hn : n < 32)
    (hj : j < 32) : (ROTR x n).testBit j = x.testBit ((j + n) % 32) := by
  unfold ROTR
  rw [Nat.testBit_or, Nat.testBit_shiftRight, Nat.testBit_mod_two_pow, Nat.testBit_shiftLeft]
  by_cases h : j + n < 32
  · rw [Nat.mod_eq_of_lt h, Nat.add_comm n j]
    simp [show ¬ (32 - n ≤ j) by omega]
  · rw [testBit_high x (n + j) hx (by omega)]
    have e : (j + n) % 32 = j - (32 - n) := by omega
    rw [e]
    simp [hj, show 32 - n ≤ j by omega]

theorem ROTR_inverse (x n : Nat) (hx : x < 2 ^ 32) (hn0 : 0 < n) (hn : n < 32) :
    ROTR (ROTR x n) (32 - n) = x := by
  apply Nat.eq_of_testBit_eq
  intro j
  by_cases hj : j < 32
  · rw [testBit_ROTR _ _ _ (ROTR_lt x n hx) (by omega) (by omega) hj,
      testBit_ROTR _ _ _ hx hn0 hn (Nat.mod_lt _ (by norm_num))]
    congr 1
    omega
  · rw [testBit_high _ j (ROTR_lt _ _ (ROTR_lt x n hx)) (by omega),
      testBit_high x j hx (by omega)]

theorem range_map_rotate (n : Nat) :
    (List.range 32).map (fun j => (j + n) % 32) = (List.range 32).rotate n := by
  apply List.ext_getElem
  · simp
  · intro k h1 h2
    rw [List.getElem_rotate]
    simp

theorem popcount32_ROTR (x n : Nat) (hx : x < 2 ^ 32) (hn0 : 0 < n) (hn : n < 32) :
    popcount32 (ROTR x n) = popcount32 x := by
  unfold popcount32
  have h1 : (List.range 32).countP (fun j => (ROTR x n).testBit j) =
      (List.range 32).countP ((fun j => x.testBit j) ∘ (fun j => (j + n) % 32)) := by
    apply List.countP_congr
    intro j hj
    rw [List.mem_range] at hj
    simp [testBit_ROTR x n j hx hn0 hn hj]
  rw [h1, ← List.countP_map, range_map_rotate]
  exact (List.rotate_perm _ n).countP_eq _

/-- C20: `ROTR` is a 32-bit right rotation on every shift amount the code
uses (2, 6, 7, 11, 13, 17, 18, 19, 22, 25): for a 32-bit word `x`, `ROTR(x, n)`
is a 32-bit word whose bit `j` is bit `(j + n) mod 32` of `x`, rotating on by
`32 - n` gives `x` back, and the number of set bits is preserved. -/
theorem ROTR_is_rotation (x n : Nat) (hx : x < 2 ^ 32) (hn : n ∈ rotr_amounts) :
    ROTR x n < 2 ^ 32 ∧
    (∀ j, j < 32 → (ROTR x n).testBit j = x.testBit ((j + n) % 32)) ∧
    (∀ j, 32 ≤ j → (ROTR x n).testBit j = false) ∧
    ROTR (ROTR x n) (32 - n) = x ∧
    popcount32 (ROTR x n) = popcount32 x ∧
    (∀ m, m ∈ rotr_amounts ↔ m ∈ [2, 6, 7, 11, 13, 17, 18, 19, 22, 25]) ∧
    (∀ y, Sigma0 y = ROTR y 2 ^^^ ROTR y 13 ^^^ ROTR y 22) ∧
    (∀ y, Sigma1 y = ROTR y 6 ^^^ ROTR y 11 ^^^ ROTR y 25) ∧
    (∀ y, sigma0 y = ROTR y 7 ^^^ ROTR y 18 ^^^ (y >>> 3)) ∧
    (∀ y, sigma1 y = ROTR y 17 ^^^ ROTR y 19 ^^^ (y >>> 10)) := by
  have hn' : 0 < n ∧ n < 32 := by
    simp only [rotr_amounts, List.mem_cons, List.mem_singleton, List.not_mem_nil, or_false] at hn
    omega
  refine ⟨ROTR_lt x n hx, fun j hj => testBit_ROTR x n j hx hn'.1 hn'.2 hj,
    fun j hj => testBit_high _ j (ROTR_lt x n hx) hj, ROTR_inverse x n hx hn'.1 hn'.2,
    popcount32_ROTR x n hx hn'.1 hn'.2, ?_, fun _ => rfl, fun _ => rfl, fun _ => rfl,
    fun _ => rfl⟩
  intro m
  simp only [rotr_amounts, List.mem_cons, List.mem_singleton, List.not_mem_nil, or_false]
  omega

theorem ROTR_is_rotation_witness :
    ROTR 0x6a09e667 2 < 2 ^ 32 ∧ ROTR (ROTR 0x6a09e667 2) (32 - 2) = 0x6a09e667 ∧
      popcount32 (ROTR 0x6a09e667 2) = popcount32 0x6a09e667 :=
  ⟨(ROTR_is_rotation 0x6a09e667 2 (by norm_num) (by decide)).1,
   (ROTR_is_rotation 0x6a09e667 2 (by norm_num) (by decide)).2.2.2.1,
   (ROTR_is_rotation 0x6a09e667 2 (by norm_num) (by decide)).2.2.2.2.1⟩

/-! ## The round constants -/

theorem is_prime_iff (p : Nat) : is_prime p = true ↔ Nat.Prime p := by
  rw [Nat.prime_def_lt']
  simp only [is_prime, Bool.and_eq_true, decide_eq_true_eq, List.all_eq_true, List.mem_range,
    Bool.or_eq_true, Nat.dvd_iff_mod_eq_zero]
  constructor
  · rintro ⟨h2, h⟩
    refine ⟨h2, fun m hm hlt hdvd => ?_⟩
    rcases h m hlt with h' | h'
    · omega
    · exact h' hdvd
  · rintro ⟨h2, h⟩
    refine ⟨h2, fun m hlt => ?_⟩
    by_cases hm : m < 2
    · exact Or.inl hm
    · exact Or.inr (h m (by omega) hlt)

set_option maxRecDepth 100000 in
theorem first_primes_check :
    ∀ p, p < 312 → is_prime p = decide (p ∈ first_primes) := by
  decide!

/-- The list `first_primes` holds the first 64 primes in increasing order: it
has 64 entries, strictly increasing, and a number below 312 is prime exactly
when it is in the list. -/
theorem first_primes_spec :
    first_primes.length = 64 ∧ (∀ p, p < 312 → (Nat.Prime p ↔ p ∈ first_primes)) ∧
      first_primes.Pairwise (fun a b => a < b) := by
  refine ⟨by decide, ?_, by decide⟩
  intro p hp
  rw [← is_prime_iff, first_primes_check p hp, decide_eq_true_eq]

set_option maxRecDepth 100000 in
theorem k_cbrt_check :
    ∀ i, i < 64 → is_cbrt_fraction (first_primes.getD i 0) (k.getD i 0) := by
  decide!

/-- C19: the round-constant table `k` matches FIPS 180-4. For every `i` in
0..63, with `p` the `(i+1)`-th prime (the list `first_primes` is the increasing
list of all primes below 312, 64 of them), `k[i]` is the first 32 bits of the
fractional part of the cube root of `p`:
`(m * 2^32 + k[i])^3 <= p * 2^96 < (m * 2^32 + k[i] + 1)^3` with `m` the
integer part of the cube root of `p`; `k[0] = 0x428a2f98` for `p = 2` and
`k[63] = 0xc67178f2` for `p = 311`. -/
theorem k_cube_roots_of_primes :
    k.length = 64 ∧ first_primes.length = 64 ∧
    (∀ p, p < 312 → (Nat.Prime p ↔ p ∈ first_primes)) ∧
    first_primes.Pairwise (fun a b => a < b) ∧
    (∀ i, i < 64 → Nat.Prime (first_primes.getD i 0) ∧ k.getD i 0 < 2 ^ 32 ∧
      ∃ m, m ^ 3 ≤ first_primes.getD i 0 ∧ first_primes.getD i 0 < (m + 1) ^ 3 ∧
        (m * 2 ^ 32 + k.getD i 0) ^ 3 ≤ first_primes.getD i 0 * 2 ^ 96 ∧
        first_primes.getD i 0 * 2 ^ 96 < (m * 2 ^ 32 + k.getD i 0 + 1) ^ 3) ∧
    first_primes.getD 0 0 = 2 ∧ k.getD 0 0 = 0x428a2f98 ∧
    first_primes.getD 63 0 = 311 ∧ k.getD 63 0 = 0xc67178f2 := by
  have hlt : ∀ i, i < 64 → first_primes.getD i 0 < 312 ∧
      first_primes.getD i 0 ∈ first_primes := by decide
  refine ⟨by decide, first_primes_spec.1, first_primes_spec.2.1, first_primes_spec.2.2, ?_,
    by decide, by decide, by decide, by decide⟩
  intro i hi
  obtain ⟨hc, m, _, h1, h2, h3, h4⟩ := k_cbrt_check i hi
  exact ⟨(first_primes_spec.2.1 _ (hlt i hi).1).2 (hlt i hi).2, hc, m, h1, h2, h3, h4⟩

theorem k_cube_roots_of_primes_witness :
    Nat.Prime (first_primes.getD 63 0) ∧ k.getD 63 0 < 2 ^ 32 ∧
      ∃ m, m ^ 3 ≤ first_primes.getD 63 0 ∧ first_primes.getD 63 0 < (m + 1) ^ 3 ∧
        (m * 2 ^ 32 + k.getD 63 0) ^ 3 ≤ first_primes.getD 63 0 * 2 ^ 96 ∧
        first_primes.getD 63 0 * 2 ^ 96 < (m * 2 ^ 32 + k.getD 63 0 + 1) ^ 3 :=
  k_cube_roots_of_primes.2.2.2.2.1 63 (by norm_num)

/-! ## `print_hash` -/

set_option maxRecDepth 100000 in
theorem fmt_02x_byte : ∀ v, v < 256 →
    fmt_02x v = [hex_digits.getD (v / 16) '0', hex_digits.getD (v % 16) '0'] ∧
    decode_hex (fmt_02x v) = [v] := by
  decide!

theorem print_hash_loop_eq (hash : List Nat) (n i : Nat) (out : List Char) :
    print_hash_loop hash n i out =
      out ++ ((List.range' i n).map fun j => fmt_02x (hash.getD j 0)).flatten := by
  induction n generalizing i out with
  | zero => simp [print_hash_loop]
  | succ n ih => simp [print_hash_loop, ih, List.range'_succ]

theorem map_getD_range (l : List Nat) : (List.range' 0 l.length).map (fun j => l.getD j 0) = l := by
  apply List.ext_getElem
  · simp
  · intro j h1 h2
    simp only [List.getElem_map, List.getElem_range', Nat.zero_add, Nat.one_mul]
    exact List.getD_eq_getElem _ _ h2

theorem print_hash_eq (hash : List Nat) (h : hash.length = 32) :
    print_hash hash = (hash.map fmt_02x).flatten ++ [Char.ofNat 10] := by
  have hm : (List.range' 0 32).map (fun j => fmt_02x (hash.getD j 0)) = hash.map fmt_02x := by
    have := congrArg (List.map fmt_02x) (map_getD_range hash)
    rw [h, List.map_map] at this
    exact this
  rw [print_hash, print_hash_loop_eq, hm, List.nil_append]

theorem hex_flatten_length (l : List Nat) (hl : ∀ b ∈ l, b < 256) :
    ((l.map fmt_02x).flatten).length = 2 * l.length := by
  induction l with
  | nil => rfl
  | cons v l ih =>
    rw [List.map_cons, List.flatten_cons, List.length_append,
      ih (fun b hb => hl b (List.mem_cons_of_mem _ hb)),
      (fmt_02x_byte v (hl v (List.mem_cons_self _ _))).1]
    simp only [List.length_cons, List.length_nil]
    omega

theorem hex_flatten_getD (l : List Nat) (hl : ∀ b ∈ l, b < 256) (i : Nat) (hi : i < l.length) :
    ((l.map fmt_02x).flatten).getD (2 * i) '0' = hex_digits.getD (l.getD i 0 / 16) '0' ∧
    ((l.map fmt_02x).flatten).getD (2 * i + 1) '0' = hex_digits.getD (l.getD i 0 % 16) '0' := by
  induction l generalizing i with
  | nil => simp at hi
  | cons v l ih =>
    rw [List.map_cons, List.flatten_cons, (fmt_02x_byte v (hl v (List.mem_cons_self _ _))).1]
    cases i with
    | zero => simp
    | succ i =>
      have h := ih (fun b hb => hl b (List.mem_cons_of_mem _ hb)) i (by simpa using hi)
      have e1 : 2 * (i + 1) = 2 * i + 1 + 1 := by omega
      rw [e1]
      simpa using h

theorem decode_hex_flatten (l : List Nat) (hl : ∀ b ∈ l, b < 256) (tail : List Char)
    (ht : tail.length < 2) : decode_hex ((l.map fmt_02x).flatten ++ tail) = l := by
  induction l with
  | nil =>
    match tail, ht with
    | [], _ => rfl
    | [_], _ => rfl
  | cons v l ih =>
    have hv := fmt_02x_byte v (hl v (List.mem_cons_self _ _))
    have hd := hv.2
    rw [hv.1] at hd
    rw [List.map_cons, List.flatten_cons, hv.1]
    simp only [decode_hex] at hd
    simp only [List.cons.injEq, and_true] at hd
    show decode_hex (_ :: _ :: ((l.map fmt_02x).flatten ++ tail)) = _
    rw [decode_hex, ih (fun b hb => hl b (List.mem_cons_of_mem _ hb)), hd]

theorem hex_digits_getD_mem (d : Nat) (hd : d < 16) : hex_digits.getD d '0' ∈ hex_digits := by
  have : ∀ d, d < 16 → hex_digits.getD d '0' ∈ hex_digits := by decide
  exact this d hd

theorem digest_bytes_lt (state : List Nat) (hs : state.length = 8) :
    ∀ b ∈ digest_bytes state, b < 256 := by
  intro b hb
  rw [digest_bytes_eq_map state hs, List.mem_map] at hb
  obtain ⟨j, _, rfl⟩ := hb
  exact state_byte_lt _ _

/-- On every input `sha256` returns, and fills a 32-byte buffer with the
serialised final state, 32 bytes. -/
theorem sha256_total_digest (message : List Nat) (len : Nat) (block0 hash0 : List Nat)
    (hh : hash0.length = 32) :
    ∃ c, sha256_run message len block0 = some c ∧
      sha256 message len block0 hash0 = some (digest_bytes c.state) ∧
      (digest_bytes c.state).length = 32 ∧ ∀ b ∈ digest_bytes c.state, b < 256 := by
  obtain ⟨c, hc, hs⟩ := sha256_run_total message len block0
  refine ⟨c, hc, ?_, digest_bytes_length _ hs.1, digest_bytes_lt _ hs.1⟩
  rw [sha256, hc, Option.map_some', apply_writes_digest _ _ hs.1 (by omega),
    List.drop_eq_nil_of_le (by omega), List.append_nil]

/-- C12: for every 32-byte hash `print_hash` emits exactly 64 characters and
then one newline; characters `2i` and `2i+1` are the two lowercase hexadecimal
digits of `hash[i]`, high nibble first, zero-padded, and decoding the 64
characters as hexadecimal returns the 32 bytes. When the program is given an
argument, what it prints after the header line is `print_hash` of the digest
that `sha256` returned. -/
theorem print_hash_hex :
    (∀ hash : List Nat, hash.length = 32 → (∀ b ∈ hash, b < 256) →
      (print_hash hash).length = 65 ∧
      (print_hash hash).getD 64 '0' = Char.ofNat 10 ∧
      (∀ i, i < 32 →
        (print_hash hash).getD (2 * i) '0' = hex_digits.getD (hash.getD i 0 / 16) '0' ∧
        (print_hash hash).getD (2 * i + 1) '0' = hex_digits.getD (hash.getD i 0 % 16) '0') ∧
      (∀ j, j < 64 → (print_hash hash).getD j '0' ∈ hex_digits) ∧
      decode_hex ((print_hash hash).take 64) = hash) ∧
    (hex_digits = "0123456789abcdef".toList ∧
      ∀ c ∈ hex_digits, ('0'.toNat ≤ c.toNat ∧ c.toNat ≤ '9'.toNat) ∨
        ('a'.toNat ≤ c.toNat ∧ c.toNat ≤ 'f'.toNat)) ∧
    (∀ argv : List (List Nat), ∀ block0 hash0 : List Nat, 2 ≤ argv.length →
      hash0.length = 32 →
      ∃ digest, sha256 (argv.getD 1 []) (strlen (argv.getD 1 [])) block0 hash0 = some digest ∧
        digest.length = 32 ∧ (∀ b ∈ digest, b < 256) ∧
        (main argv block0 hash0).map Run.stdout =
          some ("SHA-256 hash of \"".toList ++ fmt_s (argv.getD 1 []) ++ "\":".toList ++
            [Char.ofNat 10] ++ print_hash digest)) := by
  refine ⟨?_, ⟨rfl, by decide⟩, ?_⟩
  · intro hash hl hb
    have hlen := hex_flatten_length hash hb
    rw [hl] at hlen
    have hget : ∀ j, j < 64 → (print_hash hash).getD j '0' =
        ((hash.map fmt_02x).flatten).getD j '0' := by
      intro j hj
      rw [print_hash_eq hash hl, List.getD_eq_getElem?_getD, List.getD_eq_getElem?_getD,
        List.getElem?_append_left (by omega)]
    have hpair : ∀ i, i < 32 →
        (print_hash hash).getD (2 * i) '0' = hex_digits.getD (hash.getD i 0 / 16) '0' ∧
        (print_hash hash).getD (2 * i + 1) '0' = hex_digits.getD (hash.getD i 0 % 16) '0' := by
      intro i hi
      rw [hget _ (by omega), hget _ (by omega)]
      exact hex_flatten_getD hash hb i (by omega)
    refine ⟨?_, ?_, hpair, ?_, ?_⟩
    · rw [print_hash_eq hash hl, List.length_append, hlen]; rfl
    · rw [print_hash_eq hash hl, List.getD_eq_getElem?_getD,
        List.getElem?_append_right (by omega), hlen]
      rfl
    · intro j hj
      have h := hpair (j / 2) (by omega)
      have hbyte : hash.getD (j / 2) 0 < 256 := by
        rw [List.getD_eq_getElem _ _ (show j / 2 < hash.length by omega)]
        exact hb _ (List.getElem_mem _)
      rcases Nat.mod_two_eq_zero_or_one j with h0 | h1
      · rw [show j = 2 * (j / 2) by omega, h.1]
        exact hex_digits_getD_mem _ (by omega)
      · rw [show j = 2 * (j / 2) + 1 by omega, h.2]
        exact hex_digits_getD_mem _ (Nat.mod_lt _ (by norm_num))
    · rw [print_hash_eq hash hl, List.take_left' hlen]
      have := decode_hex_flatten hash hb [] (by simp)
      rwa [List.append_nil] at this
  · intro argv block0 hash0 hargc hh
    obtain ⟨c, _, hs, hl, hb⟩ :=
      sha256_total_digest (argv.getD 1 []) (strlen (argv.getD 1 [])) block0 hash0 hh
    refine ⟨_, hs, hl, hb, ?_⟩
    rw [main, if_neg (by omega), hs]
    rfl

theorem print_hash_hex_witness :
    (print_hash digest_abc).length = 65 ∧
      decode_hex ((print_hash digest_abc).take 64) = digest_abc :=
  ⟨(print_hash_hex.1 digest_abc (by decide) (by decide)).1,
   (print_hash_hex.1 digest_abc (by decide) (by decide)).2.2.2.2⟩

theorem print_hash_abc :
    print_hash digest_abc =
      "ba7816bf8f01cfea414140de5dae2223b00361a396177a9cb410ff61f20015ad".toList ++
        [Char.ofNat 10] := by
  decide

/-! ## `main` -/

/-- C13: when no argument is supplied (`argc < 2`) `main` prints the usage
line, returns exit status 1 and neither calls `sha256` nor prints a digest;
when an argument is supplied it calls `sha256` once, on `argv[1]` with its
`strlen`, and returns 0. -/
theorem main_exit_status (argv : List (List Nat)) (block0 hash0 : List Nat)
    (hh : hash0.length = 32) :
    (argv.length < 2 →
      main argv block0 hash0 = some
        { status := 1,
          stdout := "Usage: ".toList ++ fmt_s (argv.getD 0 []) ++
            " \"message to hash\"".toList ++ [Char.ofNat 10],
          hashed := [] }) ∧
    (2 ≤ argv.length →
      ∃ r, main argv block0 hash0 = some r ∧ r.status = 0 ∧
        r.hashed = [(argv.getD 1 [], strlen (argv.getD 1 []))]) := by
  constructor
  · intro h
    rw [main, if_pos h]
  · intro h
    obtain ⟨c, _, hs, _, _⟩ :=
      sha256_total_digest (argv.getD 1 []) (strlen (argv.getD 1 [])) block0 hash0 hh
    rw [main, if_neg (by omega), hs]
    exact ⟨_, rfl, rfl, rfl⟩

theorem main_exit_status_witness :
    main [c_string "./sha256"] (List.replicate 64 0) (List.replicate 32 0) = some
      { status := 1,
        stdout := "Usage: ./sha256 \"message to hash\"".toList ++ [Char.ofNat 10],
        hashed := [] } ∧
    ∃ r, main [c_string "./sha256", c_string "abc"] (List.replicate 64 0)
        (List.replicate 32 0) = some r ∧ r.status = 0 ∧
      r.hashed = [(c_string "abc", 3)] := by
  have h := main_exit_status [c_string "./sha256"] (List.replicate 64 0) (List.replicate 32 0)
    (by simp)
  have h2 := main_exit_status [c_string "./sha256", c_string "abc"] (List.replicate 64 0)
    (List.replicate 32 0) (by simp)
  refine ⟨?_, ?_⟩
  · rw [h.1 (by decide)]
    decide
  · obtain ⟨r, hr, hs, hd⟩ := h2.2 (by decide)
    refine ⟨r, hr, hs, ?_⟩
    rw [hd]
    decide

/-! ## Array accesses stay in bounds -/

theorem rd_eq (a : List Nat) (i : Nat) (h : i < a.length) : rd a i = some (a.getD i 0) := by
  rw [rd, List.getD_eq_getElem _ _ h, List.getElem?_eq_getElem h]

theorem wr_eq (a : List Nat) (i v : Nat) (h : i < a.length) : wr a i v = some (a.set i v) := by
  rw [wr, if_pos h]

theorem pack_word_checked_eq (block : List Nat) (i : Nat) (h : i * 4 + 3 < block.length) :
    pack_word_checked block i = some (pack_word block i) := by
  simp only [pack_word_checked, rd_eq block _ (show i * 4 < block.length by omega),
    rd_eq block _ (show i * 4 + 1 < block.length by omega),
    rd_eq block _ (show i * 4 + 2 < block.length by omega), rd_eq block _ h,
    Option.bind_eq_bind, Option.some_bind, pack_word]
  rfl

theorem schedule_pack_checked_eq (block : List Nat) (n i : Nat) (w : List Nat)
    (hw : i + n ≤ w.length) (hb : (i + n) * 4 ≤ block.length) :
    schedule_pack_checked block n i w = some (schedule_pack block n i w) := by
  induction n generalizing i w with
  | zero => rfl
  | succ n ih =>
    simp only [schedule_pack_checked, pack_word_checked_eq block i (by omega),
      wr_eq w i _ (by omega), Option.bind_eq_bind, Option.some_bind, schedule_pack]
    exact ih (i + 1) _ (by rw [List.length_set]; omega) (by omega)

theorem expand_word_checked_eq (w : List Nat) (i : Nat) (h16 : 16 ≤ i) (hw : i ≤ w.length) :
    expand_word_checked w i = some (expand_word w i) := by
  simp only [expand_word_checked, sub_index, if_pos (show 2 ≤ i by omega),
    if_pos (show 7 ≤ i by omega), if_pos (show 15 ≤ i by omega), if_pos h16,
    Option.some_bind, rd_eq w _ (show i - 2 < w.length by omega),
    rd_eq w _ (show i - 7 < w.length by omega), rd_eq w _ (show i - 15 < w.length by omega),
    rd_eq w _ (show i - 16 < w.length by omega), Option.bind_eq_bind, expand_word]
  rfl

theorem schedule_expand_checked_eq (n i : Nat) (w : List Nat) (h16 : 16 ≤ i)
    (hw : i + n ≤ w.length) :
    schedule_expand_checked n i w = some (schedule_expand n i w) := by
  induction n generalizing i w with
  | zero => rfl
  | succ n ih =>
    simp only [schedule_expand_checked, expand_word_checked_eq w i h16 (by omega),
      wr_eq w i _ (by omega), Option.bind_eq_bind, Option.some_bind, schedule_expand]
    exact ih (i + 1) _ (by omega) (by rw [List.length_set]; omega)

theorem round_checked_eq (w : List Nat) (i : Nat) (r : Regs) (hi : i < 64)
    (hw : w.length = 64) : round_checked w i r = some (round w i r) := by
  have hk : k.length = 64 := by decide
  simp only [round_checked, rd_eq k i (by omega), rd_eq w i (by omega), Option.bind_eq_bind,
    Option.some_bind, round]
  rfl

theorem rounds_checked_eq (w : List Nat) (n i : Nat) (r : Regs) (hi : i + n ≤ 64)
    (hw : w.length = 64) : rounds_checked w n i r = some (rounds w n i r) := by
  induction n generalizing i r with
  | zero => rfl
  | succ n ih =>
    simp only [rounds_checked, round_checked_eq w i r (by omega) hw, Option.bind_eq_bind,
      Option.some_bind, rounds]
    exact ih (i + 1) _ (by omega)

theorem sha256_transform_checked_eq (state block : List Nat) (hs : state.length = 8)
    (hb : block.length = 64) :
    sha256_transform_checked state block = some (sha256_transform state block) := by
  obtain ⟨s0, s1, s2, s3, s4, s5, s6, s7, rfl⟩ := length_eq_eight state hs
  have h1 := schedule_pack_checked_eq block 16 0 (List.replicate 64 0) (by simp) (by omega)
  have h2 := schedule_expand_checked_eq 48 16 (schedule_pack block 16 0 (List.replicate 64 0))
    (le_refl _) (by rw [schedule_pack_length]; simp)
  have h3 : ∀ r, rounds_checked (message_schedule (List.replicate 64 0) block) 64 0 r =
      some (rounds (message_schedule (List.replicate 64 0) block) 64 0 r) :=
    fun r => rounds_checked_eq _ 64 0 r (by omega) (by rw [message_schedule_length]; simp)
  simp only [sha256_transform_checked, h1, h2, Option.bind_eq_bind, Option.some_bind]
  rw [show schedule_expand 48 16 (schedule_pack block 16 0 (List.replicate 64 0)) =
    message_schedule (List.replicate 64 0) block from rfl]
  have hl : load_regs_checked [s0, s1, s2, s3, s4, s5, s6, s7] =
      some (load_regs [s0, s1, s2, s3, s4, s5, s6, s7]) := rfl
  rw [hl, Option.some_bind, h3, Option.some_bind, sha256_transform]
  generalize rounds (message_schedule (List.replicate 64 0) block) 64 0
    (load_regs [s0, s1, s2, s3, s4, s5, s6, s7]) = r
  rfl

theorem put_byte_checked_eq (v : Nat) (c : Ctx) (h : c.block_len < c.block.length) :
    put_byte_checked v c = some (put_byte v c) := by
  simp only [put_byte_checked, wr_eq _ _ _ h, Option.bind_eq_bind, Option.some_bind, put_byte]
  rfl

theorem zero_fill_block_length (bound fuel : Nat) (c : Ctx) :
    (zero_fill bound fuel c).block.length = c.block.length := by
  induction fuel generalizing c with
  | zero => rfl
  | succ fuel ih =>
    rw [zero_fill]
    by_cases h : c.block_len < bound
    · rw [if_pos h, ih]
      simp [put_byte]
    · rw [if_neg h]

theorem zero_fill_checked_eq (bound fuel : Nat) (c : Ctx) (hb : bound ≤ c.block.length)
    (hf : bound - c.block_len ≤ fuel) :
    zero_fill_checked bound fuel c = some (zero_fill bound fuel c) := by
  induction fuel generalizing c with
  | zero =>
    rw [zero_fill_checked, if_neg (by omega)]
    rfl
  | succ fuel ih =>
    rw [zero_fill_checked, zero_fill]
    by_cases h : c.block_len < bound
    · rw [if_pos h, if_pos h, put_byte_checked_eq 0 c (by omega), Option.some_bind]
      exact ih (put_byte 0 c) (by simp [put_byte]; omega) (by simp only [put_byte]; omega)
    · rw [if_neg h, if_neg h]

theorem store_length_length (bit_len n i : Nat) (block : List Nat) :
    (store_length bit_len n i block).length = block.length := by
  induction n generalizing i block with
  | zero => rfl
  | succ n ih => rw [store_length, ih, List.length_set]

theorem store_length_checked_eq (bit_len n i : Nat) (block : List Nat)
    (h : 56 + i + n ≤ block.length) :
    store_length_checked bit_len n i block = some (store_length bit_len n i block) := by
  induction n generalizing i block with
  | zero => rfl
  | succ n ih =>
    simp only [store_length_checked, wr_eq block (56 + i) _ (by omega), Option.bind_eq_bind,
      Option.some_bind, store_length]
    exact ih (i + 1) _ (by rw [List.length_set]; omega)

theorem call_transform_checked_eq (c : Ctx) (hs : c.state.length = 8)
    (hb : c.block.length = 64) : call_transform_checked c = some (call_transform c) := by
  simp only [call_transform_checked, sha256_transform_checked_eq _ _ hs hb,
    Option.bind_eq_bind, Option.some_bind, call_transform]
  rfl

theorem pad_block_checked_eq (bit_len : Nat) (c : Ctx) (hb : c.block.length = 64)
    (hl : c.block_len < 64) (hs : c.state.length = 8) :
    pad_block_checked bit_len c = some (pad_block bit_len c) ∧
      (pad_block bit_len c).block.length = 64 ∧ (pad_block bit_len c).state.length = 8 := by
  have hput : (put_byte 0x80 c).block.length = 64 := by simp [put_byte, hb]
  have hputl : (put_byte 0x80 c).block_len = c.block_len + 1 := rfl
  have hputs : (put_byte 0x80 c).state = c.state := rfl
  unfold pad_block_checked pad_block
  rw [put_byte_checked_eq 0x80 c (by omega)]
  simp only [Option.bind_eq_bind, Option.some_bind]
  by_cases h56 : (put_byte 0x80 c).block_len > 56
  · have hz : (zero_fill 64 64 (put_byte 0x80 c)).block.length = 64 := by
      rw [zero_fill_block_length, hput]
    have hzs : (zero_fill 64 64 (put_byte 0x80 c)).state.length = 8 := by
      rw [(zero_fill_fields 64 64 _).1, hputs, hs]
    simp only [if_pos h56, zero_fill_checked_eq 64 64 (put_byte 0x80 c) (by omega) (by omega),
      Option.some_bind, call_transform_checked_eq _ hzs hz, Option.pure_def]
    have hc : ({ call_transform (zero_fill 64 64 (put_byte 0x80 c)) with block_len := 0 } :
        Ctx).block.length = 64 := hz
    rw [zero_fill_checked_eq 56 56 _ (by rw [hc]; omega) (by simp), Option.some_bind,
      store_length_checked_eq bit_len 8 0 _ (by rw [zero_fill_block_length, hc]),
      Option.some_bind]
    refine ⟨rfl, ?_, ?_⟩
    · rw [store_length_length, zero_fill_block_length, hc]
    · rw [(zero_fill_fields 56 56 _).1]
      exact (wordState_transform _ _).1
  · simp only [if_neg h56, Option.pure_def, Option.some_bind]
    rw [zero_fill_checked_eq 56 56 _ (by omega) (by omega), Option.some_bind,
      store_length_checked_eq bit_len 8 0 _ (by rw [zero_fill_block_length, hput]),
      Option.some_bind]
    refine ⟨rfl, ?_, ?_⟩
    · rw [store_length_length, zero_fill_block_length, hput]
    · rw [(zero_fill_fields 56 56 _).1, hputs, hs]

theorem loop_body_checked_eq (bit_len : Nat) (c : Ctx) (hb : c.block.length = 64)
    (hs : c.state.length = 8) (hm : c.remaining ≤ c.message.length) :
    loop_body_checked bit_len c = some (loop_body bit_len c) := by
  unfold loop_body_checked loop_body
  by_cases h : c.remaining < 64
  · have hlen : (memcpy c.block c.message c.remaining).length = 64 := by
      simp only [memcpy, List.length_append, List.length_take, List.length_drop]
      omega
    simp only [if_pos h, memcpy_checked, if_pos (show c.remaining ≤ c.message.length ∧
      c.remaining ≤ c.block.length from ⟨hm, by omega⟩), Option.bind_eq_bind, Option.some_bind]
    obtain ⟨h1, h2, h3⟩ := pad_block_checked_eq bit_len
      { c with block_len := c.remaining, block := memcpy c.block c.message c.remaining,
               message := c.message.drop c.remaining,
               remaining := c.remaining - c.remaining } hlen h hs
    rw [h1, Option.some_bind]
    exact call_transform_checked_eq _ h3 h2
  · have hlen : (memcpy c.block c.message 64).length = 64 := by
      simp only [memcpy, List.length_append, List.length_take, List.length_drop]
      omega
    simp only [if_neg h, memcpy_checked, if_pos (show 64 ≤ c.message.length ∧
      64 ≤ c.block.length from ⟨by omega, by omega⟩), Option.bind_eq_bind, Option.some_bind,
      if_neg (show ¬ (64 : Nat) < 64 by omega), Option.pure_def]
    exact call_transform_checked_eq _ hs hlen

theorem sha256_loop_checked_eq (bit_len fuel : Nat) (c : Ctx) (hb : c.block.length = 64)
    (hs : c.state.length = 8) (hm : c.remaining ≤ c.message.length) :
    sha256_loop_checked bit_len fuel c = sha256_loop bit_len fuel c := by
  induction fuel generalizing c with
  | zero => rfl
  | succ fuel ih =>
    rw [sha256_loop_checked, sha256_loop]
    by_cases h : c.remaining > 0
    · rw [if_pos h, if_pos h, loop_body_checked_eq bit_len c hb hs hm, Option.some_bind]
      obtain ⟨block', hlen, hbody⟩ := loop_body_eq bit_len c hb hm
      apply ih
      · rw [hbody]; exact hlen
      · exact (loop_body_fields bit_len c).1.1
      · rw [hbody]; simp only [List.length_drop]; omega
    · rw [if_neg h, if_neg h]

theorem store_hash_checked_eq (state : List Nat) (n i : Nat) (hash : List Nat)
    (hs : i + n ≤ state.length) (hh : (i + n) * 4 ≤ hash.length) :
    store_hash_checked state n i hash = some (apply_writes hash (hash_writes state n i)) := by
  induction n generalizing i hash with
  | zero => rfl
  | succ n ih =>
    simp only [store_hash_checked, rd_eq state i (by omega), Option.bind_eq_bind,
      Option.some_bind]
    rw [wr_eq hash (i * 4) _ (by omega), Option.some_bind,
      wr_eq _ (i * 4 + 1) _ (by rw [List.length_set]; omega), Option.some_bind,
      wr_eq _ (i * 4 + 2) _ (by simp only [List.length_set]; omega), Option.some_bind,
      wr_eq _ (i * 4 + 3) _ (by simp only [List.length_set]; omega), Option.some_bind,
      ih (i + 1) _ (by omega) (by simp only [List.length_set]; omega),
      hash_writes, apply_writes_append]
    rfl

/-- A run whose memory at `message` is shorter than `len` does not pass the
checks: some read of the message lies outside the readable bytes. -/
theorem sha256_loop_checked_short (bit_len fuel : Nat) (c : Ctx) (hb : c.block.length = 64)
    (hs : c.state.length = 8) (hm : c.message.length < c.remaining) :
    sha256_loop_checked bit_len fuel c = none := by
  induction fuel generalizing c with
  | zero => rw [sha256_loop_checked, if_pos (by omega)]
  | succ fuel ih =>
    rw [sha256_loop_checked, if_pos (by omega)]
    by_cases h : 64 ≤ c.message.length
    · have hbody : loop_body_checked bit_len c = some (loop_body bit_len c) := by
        have hlen : (memcpy c.block c.message 64).length = 64 := by
          simp only [memcpy, List.length_append, List.length_take, List.length_drop]
          omega
        unfold loop_body_checked loop_body
        simp only [if_neg (show ¬ c.remaining < 64 by omega), memcpy_checked,
          if_pos (show 64 ≤ c.message.length ∧ 64 ≤ c.block.length from ⟨h, by omega⟩),
          Option.bind_eq_bind, Option.some_bind, if_neg (show ¬ (64 : Nat) < 64 by omega),
          Option.pure_def]
        exact call_transform_checked_eq _ hs hlen
      rw [hbody, Option.some_bind, loop_body_full bit_len c (by omega) hb]
      apply ih
      · simp only [List.length_take]; omega
      · exact (wordState_transform _ _).1
      · simp only [List.length_drop]; omega
    · have hbody : loop_body_checked bit_len c = none := by
        unfold loop_body_checked
        have hn : ¬ ((if c.remaining < 64 then c.remaining else 64) ≤ c.message.length ∧
            (if c.remaining < 64 then c.remaining else 64) ≤ c.block.length) := by
          split <;> omega
        simp only [memcpy_checked, if_neg hn, Option.bind_eq_bind, Option.none_bind]
      rw [hbody, Option.none_bind]

/-- C11: `sha256` and `sha256_transform` are total and every array access is
in bounds, given 8 state words, a 64-byte block, a 32-byte output buffer and
at least `len` readable message bytes. The code run with checked accesses
(indices into `block`, `w`, `k`, `state`, `hash` and offsets into `message`)
never fails and returns what the unchecked code returns, also when the
readable memory ends right after the `len` message bytes. The checks are
effective: a message memory shorter than `len`, an index `i - 16` with
`i < 16`, or a write `block[block_len++]` with `block_len >= 64` fails. -/
theorem array_accesses_in_bounds :
    (∀ state block : List Nat, state.length = 8 → block.length = 64 →
      sha256_transform_checked state block = some (sha256_transform state block)) ∧
    (∀ M rest block0 hash0 : List Nat, block0.length = 64 → hash0.length = 32 →
      ∃ out, sha256_checked (M ++ rest) M.length block0 hash0 = some out ∧
        sha256 (M ++ rest) M.length block0 hash0 = some out) ∧
    (∀ (message : List Nat) (len : Nat) (block0 hash0 : List Nat), message.length < len →
      block0.length = 64 → sha256_checked message len block0 hash0 = none) ∧
    (∀ (w : List Nat) (i : Nat), i < 16 → expand_word_checked w i = none) ∧
    (∀ (c : Ctx) (v : Nat), c.block.length = 64 → 64 ≤ c.block_len →
      put_byte_checked v c = none) ∧
    (∀ (hash : List Nat) (i v : Nat), hash.length = 32 → 32 ≤ i → wr hash i v = none) := by
  refine ⟨sha256_transform_checked_eq, ?_, ?_, ?_, ?_, ?_⟩
  · intro M rest block0 hash0 hb hh
    obtain ⟨c, hc, hs⟩ := sha256_run_total (M ++ rest) M.length block0
    have hloop := sha256_loop_checked_eq ((M.length * 8) % 2 ^ 64) M.length
      (init_ctx (M ++ rest) M.length block0) hb wordState_init.1 (by simp [init_ctx])
    rw [← sha256_run_eq_loop, hc] at hloop
    refine ⟨apply_writes hash0 (hash_writes c.state 8 0), ?_, ?_⟩
    · rw [sha256_checked, hloop]
      exact store_hash_checked_eq c.state 8 0 hash0 (by rw [hs.1]) (by omega)
    · rw [sha256, hc, Option.map_some']
  · intro message len block0 hash0 hm hb
    rw [sha256_checked, sha256_loop_checked_short _ _ _ hb wordState_init.1 (by exact hm)]
    rfl
  · intro w i hi
    simp [expand_word_checked, sub_index, show ¬ 16 ≤ i by omega]
  · intro c v hb hl
    simp [put_byte_checked, wr, show ¬ c.block_len < c.block.length by omega]
  · intro hash i v hh hi
    simp [wr, show ¬ i < hash.length by omega]

theorem array_accesses_in_bounds_witness :
    sha256_transform_checked init_state block_abc = some (sha256_transform init_state block_abc) ∧
    (∃ out, sha256_checked (msg_abc ++ []) msg_abc.length (List.replicate 64 0)
        (List.replicate 32 0) = some out ∧
      sha256 (msg_abc ++ []) msg_abc.length (List.replicate 64 0) (List.replicate 32 0) =
        some out) ∧
    sha256_checked [0x61, 0x62] 3 (List.replicate 64 0) (List.replicate 32 0) = none :=
  ⟨array_accesses_in_bounds.1 init_state block_abc (by decide) (by decide),
   array_accesses_in_bounds.2.1 msg_abc [] (List.replicate 64 0) (List.replicate 32 0)
     (by simp) (by simp),
   array_accesses_in_bounds.2.2.1 [0x61, 0x62] 3 (List.replicate 64 0) (List.replicate 32 0)
     (by decide) (by simp)⟩

end SHA256
